import Mathlib

/-!
Verification development for the `wgpu-path-tracing` repository.

The repository's numeric code (TypeScript on the host, WGSL on the device)
computes with IEEE binary floating point.  This development embeds that code
shallowly over the exact rationals `ℚ`: every arithmetic expression, branch
and loop is translated operation-for-operation from the source, with `ℚ`
standing in for `f32`/JS `number`.  JavaScript's `Infinity` / `-Infinity`
(used as fold seeds for bounding boxes and as the initial "best cost") are
represented by an explicit extended-rational type `XQ`.  Subroutine results
that are irrational by nature (vector normalisation, trigonometric camera
rotation, the integer-hash RNG stream, texture fetches and the BSDF
sampling/evaluation routines) are supplied as explicit parameters ("oracles")
to the functions that consume them; the claims verified here are independent
of the values those parameters take.

Stateful code (the BVH builder's work queue and in-place index array, the
traversal stack, the renderer's reset path, the accumulation buffer) is
embedded as explicit state passing; loops become fuel-indexed recursion, and
out-of-bounds storage-buffer indexing in the device code is modelled as an
explicit error value.
-/

namespace PT

attribute [local semireducible] Rat.add Rat.mul Rat.inv Rat.sub

set_option maxRecDepth 200000

/-- Rational 3-vector standing in for `vec3f` / `Vec3`. -/
structure Vec3 where
  x : ℚ
  y : ℚ
  z : ℚ
deriving DecidableEq, Repr

namespace Vec3

/-- Componentwise addition (`vec3.add`, WGSL `+`). -/
def add (a b : Vec3) : Vec3 := ⟨a.x + b.x, a.y + b.y, a.z + b.z⟩

/-- Componentwise subtraction (WGSL `-`). -/
def sub (a b : Vec3) : Vec3 := ⟨a.x - b.x, a.y - b.y, a.z - b.z⟩

/-- Componentwise product (WGSL `vec * vec`). -/
def mul (a b : Vec3) : Vec3 := ⟨a.x * b.x, a.y * b.y, a.z * b.z⟩

instance : Add Vec3 := ⟨add⟩
instance : Sub Vec3 := ⟨sub⟩
instance : Mul Vec3 := ⟨mul⟩

/-- Vector scaled by a scalar (`vec3.scale`, WGSL `vec * s`). -/
def scale (a : Vec3) (s : ℚ) : Vec3 := ⟨a.x * s, a.y * s, a.z * s⟩

/-- Vector divided componentwise by a scalar (WGSL `vec / s`). -/
def divQ (a : Vec3) (s : ℚ) : Vec3 := ⟨a.x / s, a.y / s, a.z / s⟩

/-- Scalar splat (`vec3f(s)`). -/
def ofQ (s : ℚ) : Vec3 := ⟨s, s, s⟩

/-- Dot product. -/
def dot (a b : Vec3) : ℚ := a.x * b.x + a.y * b.y + a.z * b.z

/-- Cross product. -/
def cross (a b : Vec3) : Vec3 :=
  ⟨a.y * b.z - a.z * b.y, a.z * b.x - a.x * b.z, a.x * b.y - a.y * b.x⟩

/-- Indexed component access (`v[0] / v[1] / v[2]`; the source only ever
indexes with 0, 1 or 2). -/
def nth (v : Vec3) : ℕ → ℚ
  | 0 => v.x
  | 1 => v.y
  | _ => v.z

end Vec3

/-! ## Progressive accumulation (`src/shader/pt.wgsl`, `main`, lines 1351-1359)

The kernel writes, for pixel `bufferIndex`:
`if (camera.frameIndex > 0u) { color = mix(prevColor, color, 1/(frameIndex+1)) }`
and stores the result.  `mix` is the WGSL builtin `x*(1-a)+y*a`. -/

/-- WGSL `mix(x, y, a) = x * (1 - a) + y * a`, componentwise. -/
def mix (a b : Vec3) (t : ℚ) : Vec3 := a.scale (1 - t) + b.scale t

/-- One frame of the kernel's accumulation update for a single pixel:
`frameIndex = 0` writes the fresh radiance directly (the `if` is skipped),
otherwise the fresh radiance is blended in with weight `1/(frameIndex+1)`. -/
def accumulatePixel (frameIndex : ℕ) (prevColor newColor : Vec3) : Vec3 :=
  if 0 < frameIndex then
    mix prevColor newColor (1 / ((frameIndex : ℚ) + 1))
  else newColor

/-- Buffer value of one pixel after the kernel has processed frames
`0..n`, starting from arbitrary pre-existing buffer content `b0`, where
`sample k` is the radiance produced for that pixel at frame `k`. -/
def accumSeq (b0 : Vec3) (sample : ℕ → Vec3) : ℕ → Vec3
  | 0 => accumulatePixel 0 b0 (sample 0)
  | n + 1 => accumulatePixel (n + 1) (accumSeq b0 sample n) (sample (n + 1))

/-- Sum of the per-frame radiance samples for frames `0..n`. -/
def sampleSum (sample : ℕ → Vec3) : ℕ → Vec3
  | 0 => sample 0
  | n + 1 => sampleSum sample n + sample (n + 1)

/-! ## Renderer reset path (`src/renderer/renderer.ts`)

`resetOutputBuffer` (lines 355-364) resets the host frame counter and the
camera's frame index to 0 and restarts the animation loop if it was stopped;
it does not touch the GPU output buffer.  `moveCamera` (150-167) translates
the camera position along its basis vectors and calls `resetOutputBuffer`;
`rotateCamera` (169-199) recomputes the orthonormal basis (trigonometric;
supplied here as oracle values) and calls `resetOutputBuffer`. -/

/-- Camera state (`CameraCPU`). -/
structure CameraCPU where
  position : Vec3
  forward : Vec3
  right : Vec3
  up : Vec3
  fov : ℚ
  aspect : ℚ
  width : ℕ
  height : ℕ
  frameIndex : ℕ
deriving DecidableEq

/-- The renderer state relevant to the reset path: the host-side frame
counter, the camera, the contents of the GPU accumulation (output) buffer,
and whether the animation loop is running (`animationFrameId !== null`). -/
structure RendererState where
  frameIndex : ℕ
  camera : CameraCPU
  outputBuffer : List Vec3
  animationRunning : Bool
deriving DecidableEq

/-- `Renderer.resetOutputBuffer`: sets `this.frameIndex = 0` and
`this.camera.frameIndex = 0`, and restarts the loop when stopped.  The GPU
output buffer is not written. -/
def resetOutputBuffer (st : RendererState) : RendererState :=
  { st with
    frameIndex := 0
    camera := { st.camera with frameIndex := 0 }
    animationRunning := true }

/-- `Renderer.moveCamera(forward, right, up)`: the movement vector is
`right*cam.right + forward*cam.forward + up*cam.up` componentwise, added to
the position, followed by `resetOutputBuffer()`. -/
def moveCamera (forward right up : ℚ) (st : RendererState) : RendererState :=
  let c := st.camera
  let movement : Vec3 :=
    ⟨right * c.right.x + forward * c.forward.x + up * c.up.x,
     right * c.right.y + forward * c.forward.y + up * c.up.y,
     right * c.right.z + forward * c.forward.z + up * c.up.z⟩
  resetOutputBuffer { st with camera := { c with position := c.position + movement } }

/-- `Renderer.rotateCamera(yaw, pitch)`: recomputes the forward/right/up
basis via rotation matrices and `asin`/`cos` (transcendental, hence the new
basis vectors are taken as parameters here), then calls
`resetOutputBuffer()`.  The claims checked about this function depend only
on the reset, not on the basis arithmetic. -/
def rotateCamera (newForward newRight newUp : Vec3) (st : RendererState) : RendererState :=
  let c := st.camera
  resetOutputBuffer
    { st with camera := { c with forward := newForward, right := newRight, up := newUp } }

/-! ## Path-tracing kernel loop (`src/shader/pt.wgsl`, `trace`, lines 1243-1325)

`trace` iterates up to `MAX_BOUNCES` times.  Each bounce calls
`sceneIntersect`, `materials[...]`, `sampleLight`, `evalBSDF` (twice),
`sampleBSDF`, `normalize` and `rand`.  Those subroutines' results for the
call made at bounce `b` are supplied by a `TraceEnv` oracle (they involve
the RNG stream, square roots and the whole scene); the loop's own
arithmetic, branching and termination structure are embedded exactly. -/

/-- `EPSILON` from the shader header (`1e-6`). -/
def EPSILON : ℚ := 1 / 1000000

/-- `MAX_BOUNCES` from the shader header. -/
def MAX_BOUNCES : ℕ := 8

/-- Shader `const DO_MIS = true`. -/
def DO_MIS : Bool := true

/-- Shader `Material` (the atlas-texture members are never read by `trace`
and are omitted). -/
structure Material where
  baseColor : Vec3
  metallic : ℚ
  roughness : ℚ
  emission : Vec3
  emissiveStrength : ℚ
  ior : ℚ
  transmission : ℚ
deriving DecidableEq

/-- Shader `Ray`. -/
structure Ray where
  origin : Vec3
  direction : Vec3
deriving DecidableEq

/-- Shader `vec2f`. -/
structure Vec2 where
  x : ℚ
  y : ℚ
deriving DecidableEq

/-- Shader `HitInfo`. -/
structure HitInfo where
  position : Vec3
  t : ℚ
  normal : Vec3
  materialIndex : ℕ
  uv : Vec2
  isFront : Bool
deriving DecidableEq

/-- Shader `LightSample` (result of `sampleLight`). -/
structure LightSample where
  intensity : Vec3
  lightType : ℕ
  wi : Vec3
  pdf : ℚ
deriving DecidableEq

/-- Result of `evalBSDF` (the shader packs it into a `vec4f`: `xyz` the
BSDF value, `w` the pdf). -/
structure EvalResult where
  value : Vec3
  pdf : ℚ
deriving DecidableEq

/-- Shader `powerHeuristic(nf, fPdf, ng, gPdf)` (lines 1091-1095). -/
def powerHeuristic (nf fPdf ng gPdf : ℚ) : ℚ :=
  let f := nf * fPdf
  let g := ng * gPdf
  (f * f) / (f * f + g * g)

/-- Oracle values consumed by one iteration of the `trace` loop. -/
structure BounceData where
  hit : HitInfo
  lightSample : LightSample
  lightEval : EvalResult
  bsdfDir : Vec3
  bsdfEval : EvalResult
  rrRand : ℚ
deriving DecidableEq

/-- Oracle environment for a whole path: the material table, the per-bounce
subroutine results, and the (irrational) `normalize` function used for the
continuation ray's direction. -/
structure TraceEnv where
  materials : ℕ → Material
  bounce : ℕ → BounceData
  normalizeV : Vec3 → Vec3

/-- The Russian-roulette survival probability the kernel computes at line
1316: `max(max(throughput.x, throughput.y), throughput.z)`. -/
def rrSurvivalProb (throughput : Vec3) : ℚ :=
  max (max throughput.x throughput.y) throughput.z

/-- The body of `trace`'s bounded `for` loop (lines 1248-1322), as a
fuel-indexed recursion: `fuel` is the number of loop iterations still
allowed (`MAX_BOUNCES - bounce`), `bounce` the loop counter, and
`throughput`/`result`/`currentRay` the mutable loop state. -/
def traceLoop (env : TraceEnv) : ℕ → ℕ → Vec3 → Vec3 → Ray → Vec3
  | 0, _, _, result, _ => result
  | fuel + 1, bounce, throughput, result, _currentRay =>
    let data := env.bounce bounce
    let hit := data.hit
    if hit.t < 0 then
      -- miss: `result += throughput * vec3f(0.0); break;`
      result + throughput * Vec3.ofQ 0
    else
      let material := env.materials hit.materialIndex
      if 0 < material.emission.x ∨ 0 < material.emission.y ∨ 0 < material.emission.z then
        -- emissive hit (lines 1259-1265): distance attenuation, then break
        let distance := hit.t
        let attenuation := 1 / (1 + distance * distance)
        result +
          (((throughput * material.emission).scale material.emissiveStrength).scale attenuation)
      else
        let transmissionProb := (1 - material.metallic) * material.transmission
        -- next-event estimation (lines 1269-1287)
        let result1 :=
          if DO_MIS = true ∧ transmissionProb < 9 / 10 then
            let lightSample := data.lightSample
            if 0 < lightSample.pdf then
              let evalResult := data.lightEval
              let bsdfValue := evalResult.value
              let bsdfPdf := evalResult.pdf
              let misWeight := powerHeuristic 1 lightSample.pdf 1 bsdfPdf
              let directLight :=
                ((lightSample.intensity * bsdfValue).scale misWeight).divQ
                  (max lightSample.pdf EPSILON)
              result + throughput * directLight
            else result
          else result
        -- BSDF sampling (lines 1290-1312)
        let bsdfDir := data.bsdfDir
        let evalResult2 := data.bsdfEval
        let bsdfValue2 := evalResult2.value
        let bsdfPdf2 := evalResult2.pdf
        if bsdfPdf2 ≤ 0 then result1
        else
          let throughput1 :=
            if DO_MIS = true ∧ 0 < transmissionProb then
              let eta := if hit.isFront then 1 / material.ior else material.ior
              throughput * Vec3.ofQ (eta * eta)
            else throughput
          let nextRay : Ray :=
            ⟨hit.position + bsdfDir.scale EPSILON, env.normalizeV bsdfDir⟩
          let throughput2 := throughput1 * (bsdfValue2.divQ (max bsdfPdf2 EPSILON))
          -- Russian roulette (lines 1315-1321)
          if 2 < bounce then
            let p := rrSurvivalProb throughput2
            if p < data.rrRand then result1
            else traceLoop env fuel (bounce + 1) (throughput2.divQ p) result1 nextRay
          else traceLoop env fuel (bounce + 1) throughput2 result1 nextRay

/-- `trace(ray)`: run the loop from bounce 0 with unit throughput and zero
accumulated radiance. -/
def trace (env : TraceEnv) (ray : Ray) : Vec3 :=
  traceLoop env MAX_BOUNCES 0 (Vec3.ofQ 1) (Vec3.ofQ 0) ray

/-! ## Extended rationals

JavaScript/WGSL float arithmetic with `Infinity` seeds appears in
`computeAABB` (fold seeds `±Infinity`), the builder's "best cost so far"
(seed `Infinity`) and the slab test's divisions.  `XQ` is `ℚ` extended with
both infinities, with the IEEE-754 rules for the operations the source
performs.  The handful of IEEE-NaN cases (`∞ - ∞`, `∞ × 0`, `0 / 0`) are
given harmless junk values; no theorem below exercises them. -/

inductive XQ where
  | negInf : XQ
  | fin : ℚ → XQ
  | posInf : XQ
deriving DecidableEq, Repr

namespace XQ

/-- Boolean `≤`. -/
def ble : XQ → XQ → Bool
  | negInf, _ => true
  | fin _, negInf => false
  | fin a, fin b => a ≤ b
  | fin _, posInf => true
  | posInf, posInf => true
  | posInf, _ => false

/-- Boolean `<`. -/
def blt : XQ → XQ → Bool
  | negInf, negInf => false
  | negInf, _ => true
  | fin _, negInf => false
  | fin a, fin b => a < b
  | fin _, posInf => true
  | posInf, _ => false

/-- `Math.min`. -/
def minx (a b : XQ) : XQ := if ble a b then a else b

/-- `Math.max`. -/
def maxx (a b : XQ) : XQ := if ble a b then b else a

/-- Negation. -/
def neg : XQ → XQ
  | negInf => posInf
  | fin a => fin (-a)
  | posInf => negInf

/-- Addition; `∞ + (-∞)` is an IEEE NaN and is given the junk value `fin 0`
(never exercised by a theorem). -/
def xadd : XQ → XQ → XQ
  | fin a, fin b => fin (a + b)
  | fin _, posInf => posInf
  | fin _, negInf => negInf
  | posInf, negInf => fin 0
  | posInf, _ => posInf
  | negInf, posInf => fin 0
  | negInf, _ => negInf

/-- Subtraction. -/
def xsub (a b : XQ) : XQ := xadd a (neg b)

/-- Multiplication with IEEE sign rules; `±∞ × 0` is an IEEE NaN and is
given the junk value `fin 0` (never exercised by a theorem). -/
def xmul : XQ → XQ → XQ
  | fin a, fin b => fin (a * b)
  | fin a, posInf => if 0 < a then posInf else if a < 0 then negInf else fin 0
  | fin a, negInf => if 0 < a then negInf else if a < 0 then posInf else fin 0
  | posInf, fin b => if 0 < b then posInf else if b < 0 then negInf else fin 0
  | posInf, posInf => posInf
  | posInf, negInf => negInf
  | negInf, fin b => if 0 < b then negInf else if b < 0 then posInf else fin 0
  | negInf, posInf => negInf
  | negInf, negInf => posInf

/-- Division by a rational, as in the slab test `(bound - origin) / dir`.
A finite nonzero numerator divided by 0 gives the signed infinity (IEEE,
with `ℚ`'s single zero playing `+0`); `0 / 0` is an IEEE NaN and is given
the junk value `posInf` (never exercised by a theorem). -/
def xdiv : XQ → ℚ → XQ
  | fin a, d => if d = 0 then (if a < 0 then negInf else posInf) else fin (a / d)
  | posInf, d => if d < 0 then negInf else posInf
  | negInf, d => if d < 0 then posInf else negInf

end XQ

/-- 3-vector of extended rationals (AABB corners). -/
structure Vec3X where
  x : XQ
  y : XQ
  z : XQ
deriving DecidableEq, Repr

namespace Vec3X

/-- Indexed component access. -/
def nth (v : Vec3X) : ℕ → XQ
  | 0 => v.x
  | 1 => v.y
  | _ => v.z

/-- `vec3.min` of an extended corner and a rational point. -/
def minP (a : Vec3X) (v : Vec3) : Vec3X :=
  ⟨XQ.minx a.x (XQ.fin v.x), XQ.minx a.y (XQ.fin v.y), XQ.minx a.z (XQ.fin v.z)⟩

/-- `vec3.max` of an extended corner and a rational point. -/
def maxP (a : Vec3X) (v : Vec3) : Vec3X :=
  ⟨XQ.maxx a.x (XQ.fin v.x), XQ.maxx a.y (XQ.fin v.y), XQ.maxx a.z (XQ.fin v.z)⟩

end Vec3X

/-- Axis-aligned bounding box with extended corners (`interface AABB` /
shader `struct AABB`; the fold seeds are `(+∞, -∞)`). -/
structure AABBX where
  min : Vec3X
  max : Vec3X
deriving DecidableEq, Repr

/-- Triangle record (`TriangleCPU` / shader `struct Triangle`). -/
structure Triangle where
  v0 : Vec3
  v1 : Vec3
  v2 : Vec3
  n0 : Vec3
  n1 : Vec3
  n2 : Vec3
  uv0 : Vec2
  uv1 : Vec2
  uv2 : Vec2
  materialIndex : ℕ
deriving DecidableEq

/-- Default (zero) triangle, used as the `getD` fallback for array reads. -/
def dTri : Triangle :=
  ⟨Vec3.ofQ 0, Vec3.ofQ 0, Vec3.ofQ 0, Vec3.ofQ 0, Vec3.ofQ 0, Vec3.ofQ 0,
   ⟨0, 0⟩, ⟨0, 0⟩, ⟨0, 0⟩, 0⟩

/-- `computeAABB(triangles)` (`src/renderer/bvh.ts` lines 19-33): fold
`vec3.min`/`vec3.max` over all three vertices of every triangle, seeded
with `(+Infinity, -Infinity)`. -/
def computeAABB (triangles : List Triangle) : AABBX :=
  triangles.foldl
    (fun b tri =>
      ⟨((b.min.minP tri.v0).minP tri.v1).minP tri.v2,
       ((b.max.maxP tri.v0).maxP tri.v1).maxP tri.v2⟩)
    ⟨⟨XQ.posInf, XQ.posInf, XQ.posInf⟩, ⟨XQ.negInf, XQ.negInf, XQ.negInf⟩⟩

/-- `computeCentroid(triangle)` (`bvh.ts` lines 35-40): `(v0+v1+v2)/3`. -/
def computeCentroid (triangle : Triangle) : Vec3 :=
  ((triangle.v0 + triangle.v1) + triangle.v2).scale (1 / 3)

/-- BVH node (`BVHNode` on both host and device). -/
structure BVHNode where
  aabb : AABBX
  left : ℕ
  right : ℕ
  triangleOffset : ℕ
  triangleCount : ℕ
deriving DecidableEq

/-- The "no child" sentinel `0xffffffff` written by the builder. -/
def NO_CHILD : ℕ := 4294967295

/-- Default node, used as the `getD` fallback for array reads. -/
def dNode : BVHNode :=
  ⟨⟨⟨XQ.posInf, XQ.posInf, XQ.posInf⟩, ⟨XQ.negInf, XQ.negInf, XQ.negInf⟩⟩,
   NO_CHILD, NO_CHILD, 0, 0⟩

/-! ## BVH builder (`src/renderer/bvh.ts`, `buildBVH`, lines 42-261)

The builder keeps a mutable index array (initially the identity), a node
array and an explicit work stack (`workQueue`, popped LIFO).  Each task
either keeps its node a leaf (small or unsplittable range) or partitions
its sub-range in place and pushes two children.  The index array is
embedded as a function `ℕ → ℕ`; a JS swap of entries `i`,`j` is
precomposition with `Equiv.swap i j`. -/

/-- `MAX_TRIANGLES_PER_NODE` (`bvh.ts` line 17). -/
def MAX_TRIANGLES_PER_NODE : ℕ := 4

/-- Outcome of the binned SAH search: best cost (seeded `Infinity`), best
split position (seeded with the longest-axis midpoint) and best axis. -/
structure SplitChoice where
  cost : XQ
  splitPos : XQ
  axisSel : ℕ
deriving DecidableEq

/-- One `testAxis` pass of the SAH loop (`bvh.ts` lines 119-158): compute
the centroid extent on the axis, skip it when degenerate (`< 1e-4`),
otherwise try the 31 interior bin planes (`numBins = 32`), scoring each
non-empty partition with `cost = leftCount * rightCount` and keeping the
strict minimum. -/
def sahAxisScan (centroids : List Vec3) (testAxis : ℕ) (acc : SplitChoice) : SplitChoice :=
  let minVal := centroids.foldl (fun m c => XQ.minx m (XQ.fin (c.nth testAxis))) XQ.posInf
  let maxVal := centroids.foldl (fun m c => XQ.maxx m (XQ.fin (c.nth testAxis))) XQ.negInf
  if XQ.blt (XQ.xsub maxVal minVal) (XQ.fin (1 / 10000)) then acc
  else
    (List.range' 1 31).foldl
      (fun acc2 bin =>
        let testSplitPos :=
          XQ.xadd minVal (XQ.xmul (XQ.xsub maxVal minVal) (XQ.fin ((bin : ℚ) / 32)))
        let leftCount :=
          (centroids.filter fun c => XQ.blt (XQ.fin (c.nth testAxis)) testSplitPos).length
        let rightCount := centroids.length - leftCount
        if leftCount = 0 ∨ rightCount = 0 then acc2
        else
          let cost := XQ.fin ((leftCount : ℚ) * (rightCount : ℚ))
          if XQ.blt cost acc2.cost then ⟨cost, testSplitPos, testAxis⟩ else acc2)
      acc

/-- Split selection (`bvh.ts` lines 93-158): longest axis and its midpoint
as the default, then the SAH scan over all three axes. -/
def findSplitV1 (aabb : AABBX) (centroids : List Vec3) : SplitChoice :=
  let extent : Vec3X :=
    ⟨XQ.xsub aabb.max.x aabb.min.x, XQ.xsub aabb.max.y aabb.min.y,
     XQ.xsub aabb.max.z aabb.min.z⟩
  let axis1 := if XQ.blt (extent.nth 0) (extent.nth 1) then 1 else 0
  let axis2 := if XQ.blt (extent.nth axis1) (extent.nth 2) then 2 else axis1
  let splitPos :=
    XQ.xmul (XQ.xadd (aabb.min.nth axis2) (aabb.max.nth axis2)) (XQ.fin (1 / 2))
  [0, 1, 2].foldl (fun acc2 testAxis => sahAxisScan centroids testAxis acc2)
    ⟨XQ.posInf, splitPos, axis2⟩

/-- The two-pointer in-place partition (`bvh.ts` lines 166-187), one
recursive step per inner-loop advance/retreat or swap.  `fuel` bounds the
number of steps (the caller passes `count + 2`, more than the loop can
take); indices are integers because `right` may step to `start - 1`. -/
def partGo (tris : List Triangle) (ax : ℕ) (sp : XQ) :
    ℕ → (ℕ → ℕ) → ℤ → ℤ → (ℕ → ℕ) × ℤ
  | 0, idx, left, _ => (idx, left)
  | fuel + 1, idx, left, right =>
    if left ≤ right then
      if XQ.blt (XQ.fin ((computeCentroid (tris.getD (idx left.toNat) dTri)).nth ax)) sp then
        partGo tris ax sp fuel idx (left + 1) right
      else if XQ.ble sp (XQ.fin ((computeCentroid (tris.getD (idx right.toNat) dTri)).nth ax)) then
        partGo tris ax sp fuel idx left (right - 1)
      else if left < right then
        partGo tris ax sp fuel (idx ∘ Equiv.swap left.toNat right.toNat) (left + 1) (right - 1)
      else (idx, left)
    else (idx, left)

/-- A pending build task (`WorkItem`): triangle range start/count and the
index of the node it will populate. -/
structure BuildTask where
  start : ℕ
  count : ℕ
  nodeIndex : ℕ
deriving DecidableEq

/-- Builder state: node array, triangle index array (as a function) and
work stack (head = next pop). -/
structure BuildState where
  nodes : List BVHNode
  idx : ℕ → ℕ
  queue : List BuildTask

/-- One iteration of the builder's `while` loop (`bvh.ts` lines 76-246) on
the popped task `t`: small ranges stay leaves; otherwise choose a split,
partition the sub-range in place, keep the node a leaf if the partition is
degenerate, and otherwise append two children and push their tasks
(left pushed first, so the right task is popped first). -/
def buildStep (tris : List Triangle) (st : BuildState) (t : BuildTask)
    (rest : List BuildTask) : BuildState :=
  if t.count ≤ MAX_TRIANGLES_PER_NODE then { st with queue := rest }
  else
    let node := st.nodes.getD t.nodeIndex dNode
    let centroids :=
      (List.range t.count).map fun i => computeCentroid (tris.getD (st.idx (t.start + i)) dTri)
    let choice := findSplitV1 node.aabb centroids
    let pr :=
      partGo tris choice.axisSel choice.splitPos (t.count + 2) st.idx
        (t.start : ℤ) ((t.start : ℤ) + (t.count : ℤ) - 1)
    let idx2 := pr.1
    let leftZ := pr.2
    if leftZ ≤ (t.start : ℤ) ∨ ((t.start : ℤ) + (t.count : ℤ)) ≤ leftZ then
      { st with idx := idx2, queue := rest }
    else
      let leftCount := (leftZ - (t.start : ℤ)).toNat
      let rightCount := t.count - leftCount
      let leftChildIndex := st.nodes.length
      let rightChildIndex := st.nodes.length + 1
      let leftAABB :=
        computeAABB ((List.range leftCount).map fun i => tris.getD (idx2 (t.start + i)) dTri)
      let rightAABB :=
        computeAABB ((List.range rightCount).map fun i => tris.getD (idx2 (leftZ.toNat + i)) dTri)
      let nodes2 :=
        (st.nodes ++
            ([⟨leftAABB, NO_CHILD, NO_CHILD, t.start, leftCount⟩,
              ⟨rightAABB, NO_CHILD, NO_CHILD, leftZ.toNat, rightCount⟩] :
              List BVHNode)).set t.nodeIndex
          { node with left := leftChildIndex, right := rightChildIndex, triangleCount := 0 }
      { nodes := nodes2
        idx := idx2
        queue :=
          ⟨leftZ.toNat, rightCount, rightChildIndex⟩ ::
            ⟨t.start, leftCount, leftChildIndex⟩ :: rest }

/-- The builder's `while (workQueue.length > 0)` loop, fuel-indexed. -/
def buildRun (tris : List Triangle) : ℕ → BuildState → BuildState
  | 0, st => st
  | fuel + 1, st =>
    match st.queue with
    | [] => st
    | t :: rest => buildRun tris fuel (buildStep tris st t rest)

/-- Builder state after the root node and root task are created
(`bvh.ts` lines 44-73): identity index array, one node covering the whole
range with sentinel children, one task. -/
def initState (tris : List Triangle) : BuildState :=
  { nodes := [⟨computeAABB tris, NO_CHILD, NO_CHILD, 0, tris.length⟩]
    idx := fun k => k
    queue := [⟨0, tris.length, 0⟩] }

/-- Fuel that provably outlasts the builder loop: the sum of `2 ^ count`
over pending tasks strictly decreases at every iteration. -/
def buildFuel (st : BuildState) : ℕ :=
  (st.queue.map fun t => 2 ^ t.count).sum

/-- `buildBVH(triangles)`: run the loop to completion, then materialise the
reordered triangle array `reordered[i] = triangles[triangleIndices[i]]`
(`bvh.ts` lines 248-254).  Returns `(nodes, reordered_triangles)`. -/
def buildBVH (tris : List Triangle) : List BVHNode × List Triangle :=
  let final := buildRun tris (buildFuel (initState tris)) (initState tris)
  (final.nodes, (List.range tris.length).map fun i => tris.getD (final.idx i) dTri)

/-! ## Binned SAH of the surface-area variant (`bvh.ts` lines 432-490)

The second revision of the builder sorts each sub-range by centroid and
picks a split index by surface-area cost; `findBestSplit` and `computeSAH`
are embedded here together with the `AABB` class's `getSurfaceArea`
(`src/utils/aabb.ts`). -/

/-- `TRAVERSAL_COST` (`bvh.ts` line 467). -/
def TRAVERSAL_COST : ℚ := 1

/-- `INTERSECTION_TEST_COST` (`bvh.ts` line 470). -/
def INTERSECTION_TEST_COST : ℚ := 2

/-- JS `Array.prototype.slice(s, e)`. -/
def sliceL (l : List Triangle) (s e : ℕ) : List Triangle := (l.drop s).take (e - s)

/-- `AABB.getSurfaceArea()`: `2 * (dx*dy + dy*dz + dz*dx)`. -/
def getSurfaceArea (b : AABBX) : XQ :=
  let dx := XQ.xsub b.max.x b.min.x
  let dy := XQ.xsub b.max.y b.min.y
  let dz := XQ.xsub b.max.z b.min.z
  XQ.xmul (XQ.fin 2) (XQ.xadd (XQ.xadd (XQ.xmul dx dy) (XQ.xmul dy dz)) (XQ.xmul dz dx))

/-- `computeSAH(triangles, startIndex, endIndex, axis, splitIndex)`
(`bvh.ts` lines 475-490): `TRAVERSAL_COST + (leftSA*leftCount +
rightSA*rightCount) * INTERSECTION_TEST_COST`.  (The `axis` argument is
unused by the source body as well.) -/
def computeSAH (tris : List Triangle) (startIndex endIndex : ℕ) (axisArg splitIndex : ℕ) : XQ :=
  let leftAABB := computeAABB (sliceL tris startIndex splitIndex)
  let rightAABB := computeAABB (sliceL tris splitIndex endIndex)
  let leftCost := XQ.xmul (getSurfaceArea leftAABB) (XQ.fin ((splitIndex : ℚ) - (startIndex : ℚ)))
  let rightCost := XQ.xmul (getSurfaceArea rightAABB) (XQ.fin ((endIndex : ℚ) - (splitIndex : ℚ)))
  XQ.xadd (XQ.fin TRAVERSAL_COST)
    (XQ.xmul (XQ.xadd leftCost rightCost) (XQ.fin INTERSECTION_TEST_COST))

/-- `findBestSplit(triangles, startIndex, endIndex, axis, numOfBins)`
(`bvh.ts` lines 434-463): try the split indices `start +
floor(numTriangles * i / numOfBins)` for `i = 1 .. numOfBins - 1`, skip
boundary candidates, keep the index with strictly smallest `computeSAH`
cost (seed `Infinity` / `startIndex`). -/
def findBestSplit (tris : List Triangle) (startIndex endIndex : ℕ) (axisArg numOfBins : ℕ) : ℕ :=
  let numTriangles := endIndex - startIndex
  ((List.range' 1 (numOfBins - 1)).foldl
      (fun acc i =>
        let splitIndex := startIndex + numTriangles * i / numOfBins
        if splitIndex = startIndex ∨ splitIndex = endIndex then acc
        else
          let cost := computeSAH tris startIndex endIndex axisArg splitIndex
          if XQ.blt cost acc.1 then (cost, splitIndex) else acc)
      ((XQ.posInf, startIndex) : XQ × ℕ)).2

/-- The fold body of `findBestSplit`, written out (let-free) for reasoning:
`findBestSplit` is definitionally the second component of folding this step
over the candidate bins from the seed `(Infinity, startIndex)`. -/
def sahFoldStep (tris : List Triangle) (s e a bins : ℕ) (acc2 : XQ × ℕ) (i : ℕ) : XQ × ℕ :=
  if s + (e - s) * i / bins = s ∨ s + (e - s) * i / bins = e then acc2
  else
    if XQ.blt (computeSAH tris s e a (s + (e - s) * i / bins)) acc2.1 = true then
      (computeSAH tris s e a (s + (e - s) * i / bins), s + (e - s) * i / bins)
    else acc2

/-- Modelled from the spec: the bare surface-area-heuristic score
`leftSurfaceArea × leftCount + rightSurfaceArea × rightCount` that the spec
says each candidate split is scored with, over the same slices as
`computeSAH`, for comparison with what the code actually computes. -/
def sahCostSpec (tris : List Triangle) (startIndex endIndex splitIndex : ℕ) : XQ :=
  let leftAABB := computeAABB (sliceL tris startIndex splitIndex)
  let rightAABB := computeAABB (sliceL tris splitIndex endIndex)
  XQ.xadd
    (XQ.xmul (getSurfaceArea leftAABB) (XQ.fin ((splitIndex : ℚ) - (startIndex : ℚ))))
    (XQ.xmul (getSurfaceArea rightAABB) (XQ.fin ((endIndex : ℚ) - (splitIndex : ℚ))))

/-! ## Device-side traversal (`src/shader/pt.wgsl`, lines 733-895)

`rayTriangleIntersect` (Möller-Trumbore), `rayAABBIntersect` (slab test)
and the explicit-stack `traverseBVH` with its `array<u32, 64>` stack.
Writing `stack[stackPtr]` with `stackPtr > 63` is out of bounds, as is
reading `bvhNodes[idx]` with `idx` past the node array; both are modelled
as explicit error values. -/

/-- `rayTriangleIntersect(ray, triangle)` (lines 734-829).  The shading
normal is stored unnormalised (`normalize` rescales by a positive factor
and no verified claim reads the normal); the normal-map branch (a texture
fetch) is likewise outside the claims' scope and the interpolated normal is
used.  `isFront` compares `dot(geometryNormal, dir) < 0`; normalising the
geometric normal cannot change that sign, so the unnormalised cross product
is used. -/
def rayTriangleIntersect (ray : Ray) (triangle : Triangle) : HitInfo :=
  let hit0 : HitInfo := ⟨Vec3.ofQ 0, -1, Vec3.ofQ 0, 0, ⟨0, 0⟩, false⟩
  let edge1 := triangle.v1 - triangle.v0
  let edge2 := triangle.v2 - triangle.v0
  let h := Vec3.cross ray.direction edge2
  let a := Vec3.dot edge1 h
  if |a| < EPSILON then hit0
  else
    let f := 1 / a
    let s := ray.origin - triangle.v0
    let u := f * Vec3.dot s h
    if u < 0 ∨ 1 < u then hit0
    else
      let q := Vec3.cross s edge1
      let v := f * Vec3.dot ray.direction q
      if v < 0 ∨ 1 < u + v then hit0
      else
        let t := f * Vec3.dot edge2 q
        if EPSILON < t then
          let w := 1 - u - v
          { position := ray.origin + ray.direction.scale t
            t := t
            normal := (triangle.n0.scale w + triangle.n1.scale u) + triangle.n2.scale v
            materialIndex := triangle.materialIndex
            uv := ⟨triangle.uv0.x * w + triangle.uv1.x * u + triangle.uv2.x * v,
                   triangle.uv0.y * w + triangle.uv1.y * u + triangle.uv2.y * v⟩
            isFront := Vec3.dot (Vec3.cross edge1 edge2) ray.direction < 0 }
        else hit0

/-- `rayAABBIntersect(ray, aabb)` (lines 833-844): slab test with the IEEE
division conventions of `XQ.xdiv`. -/
def rayAABBIntersect (ray : Ray) (aabb : AABBX) : Bool :=
  let t1x := XQ.xdiv (XQ.xsub aabb.min.x (XQ.fin ray.origin.x)) ray.direction.x
  let t1y := XQ.xdiv (XQ.xsub aabb.min.y (XQ.fin ray.origin.y)) ray.direction.y
  let t1z := XQ.xdiv (XQ.xsub aabb.min.z (XQ.fin ray.origin.z)) ray.direction.z
  let t2x := XQ.xdiv (XQ.xsub aabb.max.x (XQ.fin ray.origin.x)) ray.direction.x
  let t2y := XQ.xdiv (XQ.xsub aabb.max.y (XQ.fin ray.origin.y)) ray.direction.y
  let t2z := XQ.xdiv (XQ.xsub aabb.max.z (XQ.fin ray.origin.z)) ray.direction.z
  let tminx := XQ.minx t1x t2x
  let tminy := XQ.minx t1y t2y
  let tminz := XQ.minx t1z t2z
  let tmaxx := XQ.maxx t1x t2x
  let tmaxy := XQ.maxx t1y t2y
  let tmaxz := XQ.maxx t1z t2z
  let tmin := XQ.maxx (XQ.maxx tminx tminy) tminz
  let tmax := XQ.minx (XQ.minx tmaxx tmaxy) tmaxz
  XQ.ble tmin tmax && XQ.ble (XQ.fin 0) tmax

/-- Faults the device traversal can run into in this model. -/
inductive TravErr where
  | fuelOut : TravErr
  | oobNode : TravErr
  | stackOverflow : TravErr
deriving DecidableEq

/-- The traversal stack's fixed capacity (`array<u32, 64>`). -/
def STACK_CAPACITY : ℕ := 64

/-- The leaf loop of `traverseBVH` (lines 870-878): test every triangle of
the leaf's range, keeping the closest strictly positive hit; `hasHit`
mirrors the shader's boolean. -/
def leafScan (tris : List Triangle) (ray : Ray) (offset count : ℕ)
    (acc : HitInfo × Bool) : HitInfo × Bool :=
  (List.range count).foldl
    (fun acc2 i =>
      let hit := rayTriangleIntersect ray (tris.getD (offset + i) dTri)
      if 0 < hit.t ∧ (hit.t < acc2.1.t ∨ acc2.2 = false) then (hit, true) else acc2)
    acc

/-- The `while (stackPtr > 0)` loop of `traverseBVH` (lines 859-887),
fuel-indexed.  Popping a node index past the node array is the
out-of-bounds read `bvhNodes[nodeIdx]`; pushing onto a full stack is the
out-of-bounds write `stack[stackPtr]` with `stackPtr = 64`.  The shader
pushes `node.right` then `node.left`, so `left` ends on top. -/
def traverseGo (nodes : List BVHNode) (tris : List Triangle) (ray : Ray) :
    ℕ → List ℕ → HitInfo × Bool → Except TravErr HitInfo
  | 0, _, _ => Except.error TravErr.fuelOut
  | _ + 1, [], acc => Except.ok acc.1
  | fuel + 1, nodeIdx :: stack1, acc =>
    if nodeIdx < nodes.length then
      let node := nodes.getD nodeIdx dNode
      if rayAABBIntersect ray node.aabb = false then
        traverseGo nodes tris ray fuel stack1 acc
      else if 0 < node.triangleCount then
        traverseGo nodes tris ray fuel stack1
          (leafScan tris ray node.triangleOffset node.triangleCount acc)
      else
        if STACK_CAPACITY ≤ stack1.length then Except.error TravErr.stackOverflow
        else if STACK_CAPACITY ≤ stack1.length + 1 then Except.error TravErr.stackOverflow
        else traverseGo nodes tris ray fuel (node.left :: node.right :: stack1) acc
    else Except.error TravErr.oobNode

/-- Number of nodes in the (well-founded) subtree below node `i`; bounds
the traversal's iteration count. -/
def weightB (nodes : List BVHNode) (i : ℕ) : ℕ :=
  if 0 < (nodes.getD i dNode).triangleCount then 1
  else if h : i < (nodes.getD i dNode).left ∧ (nodes.getD i dNode).left < nodes.length ∧
      i < (nodes.getD i dNode).right ∧ (nodes.getD i dNode).right < nodes.length then
    1 + weightB nodes (nodes.getD i dNode).left + weightB nodes (nodes.getD i dNode).right
  else 1
termination_by nodes.length - i
decreasing_by
  all_goals omega

/-- Depth of the subtree below node `i` (leaves at depth 0). -/
def depthB (nodes : List BVHNode) (i : ℕ) : ℕ :=
  if 0 < (nodes.getD i dNode).triangleCount then 0
  else if h : i < (nodes.getD i dNode).left ∧ (nodes.getD i dNode).left < nodes.length ∧
      i < (nodes.getD i dNode).right ∧ (nodes.getD i dNode).right < nodes.length then
    1 + max (depthB nodes (nodes.getD i dNode).left) (depthB nodes (nodes.getD i dNode).right)
  else 0
termination_by nodes.length - i
decreasing_by
  all_goals omega

/-- `traverseBVH(ray)`: push the root, run the loop (with fuel
`2·nodes + 1`, which the termination theorem shows suffices for well-formed
trees), starting from `closest.t = -1`, `hasHit = false` and
zero-initialised remaining fields. -/
def traverseBVH (nodes : List BVHNode) (tris : List Triangle) (ray : Ray) :
    Except TravErr HitInfo :=
  traverseGo nodes tris ray (2 * nodes.length + 1) [0]
    (⟨Vec3.ofQ 0, -1, Vec3.ofQ 0, 0, ⟨0, 0⟩, false⟩, false)

/-- Structural validity of a BVH node array: nonempty with root 0; every
node either a leaf (positive triangle count, both children the sentinel) or
an interior node (zero count, two distinct in-bounds children of strictly
greater index); and no two distinct interior nodes sharing a child (each
node has at most one parent, so the array is a forest of trees). -/
def WellFormedBVH (nodes : List BVHNode) : Prop :=
  0 < nodes.length ∧
  (∀ i, i < nodes.length →
    (0 < (nodes.getD i dNode).triangleCount ∧ (nodes.getD i dNode).left = NO_CHILD ∧
        (nodes.getD i dNode).right = NO_CHILD) ∨
    ((nodes.getD i dNode).triangleCount = 0 ∧
        i < (nodes.getD i dNode).left ∧ (nodes.getD i dNode).left < nodes.length ∧
        i < (nodes.getD i dNode).right ∧ (nodes.getD i dNode).right < nodes.length ∧
        (nodes.getD i dNode).left ≠ (nodes.getD i dNode).right)) ∧
  (∀ p, p < nodes.length → ∀ q, q < nodes.length →
    (p = q ∨ 0 < (nodes.getD p dNode).triangleCount ∨ 0 < (nodes.getD q dNode).triangleCount ∨
      ((nodes.getD p dNode).left ≠ (nodes.getD q dNode).left ∧
       (nodes.getD p dNode).left ≠ (nodes.getD q dNode).right ∧
       (nodes.getD p dNode).right ≠ (nodes.getD q dNode).left ∧
       (nodes.getD p dNode).right ≠ (nodes.getD q dNode).right)))

instance decWellFormedBVH (nodes : List BVHNode) : Decidable (WellFormedBVH nodes) := by
  unfold WellFormedBVH
  infer_instance

instance decEqTravResult : DecidableEq (Except TravErr HitInfo) := fun a b =>
  match a, b with
  | Except.error x, Except.error y =>
    if h : x = y then isTrue (congrArg Except.error h)
    else isFalse fun hc => h (by injection hc)
  | Except.error _, Except.ok _ => isFalse fun hc => Except.noConfusion hc
  | Except.ok _, Except.error _ => isFalse fun hc => Except.noConfusion hc
  | Except.ok x, Except.ok y =>
    if h : x = y then isTrue (congrArg Except.ok h)
    else isFalse fun hc => h (by injection hc)

/-- The set of reordered-triangle slots reachable beneath node `i`: a
leaf's own range, or the union over an interior node's two children. -/
def belowTris (nodes : List BVHNode) (i : ℕ) : Finset ℕ :=
  if 0 < (nodes.getD i dNode).triangleCount then
    Finset.Ico (nodes.getD i dNode).triangleOffset
      ((nodes.getD i dNode).triangleOffset + (nodes.getD i dNode).triangleCount)
  else if h : i < (nodes.getD i dNode).left ∧ (nodes.getD i dNode).left < nodes.length ∧
      i < (nodes.getD i dNode).right ∧ (nodes.getD i dNode).right < nodes.length then
    belowTris nodes (nodes.getD i dNode).left ∪ belowTris nodes (nodes.getD i dNode).right
  else ∅
termination_by nodes.length - i
decreasing_by
  all_goals omega

/-- The set of node indices in the subtree rooted at `i` (the node itself,
plus, for an interior node with in-bounds higher-indexed children, its two
subtrees).  Used to bound the traversal's work. -/
def descB (nodes : List BVHNode) (i : ℕ) : Finset ℕ :=
  if 0 < (nodes.getD i dNode).triangleCount then {i}
  else if h : i < (nodes.getD i dNode).left ∧ (nodes.getD i dNode).left < nodes.length ∧
      i < (nodes.getD i dNode).right ∧ (nodes.getD i dNode).right < nodes.length then
    {i} ∪ descB nodes (nodes.getD i dNode).left ∪ descB nodes (nodes.getD i dNode).right
  else {i}
termination_by nodes.length - i
decreasing_by
  all_goals omega

/-- Membership of a rational point in an extended-corner box. -/
def ptInBox (p : Vec3) (b : AABBX) : Prop :=
  XQ.ble b.min.x (XQ.fin p.x) = true ∧ XQ.ble (XQ.fin p.x) b.max.x = true ∧
  XQ.ble b.min.y (XQ.fin p.y) = true ∧ XQ.ble (XQ.fin p.y) b.max.y = true ∧
  XQ.ble b.min.z (XQ.fin p.z) = true ∧ XQ.ble (XQ.fin p.z) b.max.z = true

/-- All three vertices of a triangle lie in the box. -/
def triInBox (t : Triangle) (b : AABBX) : Prop :=
  ptInBox t.v0 b ∧ ptInBox t.v1 b ∧ ptInBox t.v2 b

/-- Box containment, corner-wise (`inner ⊆ outer`). -/
def boxLe (inner outer : AABBX) : Prop :=
  XQ.ble outer.min.x inner.min.x = true ∧ XQ.ble inner.max.x outer.max.x = true ∧
  XQ.ble outer.min.y inner.min.y = true ∧ XQ.ble inner.max.y outer.max.y = true ∧
  XQ.ble outer.min.z inner.min.z = true ∧ XQ.ble inner.max.z outer.max.z = true

/-- The step function of `computeAABB`'s fold, named so that lemmas can
speak about one expansion at a time (definitionally the lambda inside
`computeAABB`). -/
def expandBox (b : AABBX) (tri : Triangle) : AABBX :=
  ⟨((b.min.minP tri.v0).minP tri.v1).minP tri.v2,
   ((b.max.maxP tri.v0).maxP tri.v1).maxP tri.v2⟩

/-- Loop invariant of the builder (`bvh.ts` `while` loop, lines 76-246),
established by the initial state of a non-empty input and preserved by
every iteration:

* `perm`: the index array is a permutation of `ℕ` fixing everything at or
  past the input length;
* `rootLen`/`rootBox`: node 0 exists and keeps the whole-input AABB;
* `shape`: every node is a leaf (positive count, sentinel children) or an
  interior node (zero count, in-bounds strictly-greater children);
* `rangeBound`: every populated range stays inside the input;
* `cover`: every input slot lies in exactly one populated node's range;
* `tasks`: every pending task matches its (populated) node's range;
* `taskDistinct`: pending tasks target pairwise distinct nodes;
* `boxA`: a populated node's AABB contains the triangles of its range
  under the current index array;
* `boxB`: an interior node's AABB contains both children's AABBs. -/
structure BuildInv (tris : List Triangle) (st : BuildState) : Prop where
  perm : ∃ σ : Equiv.Perm ℕ, st.idx = ⇑σ ∧ ∀ k, tris.length ≤ k → st.idx k = k
  rootLen : 0 < st.nodes.length
  rootBox : (st.nodes.getD 0 dNode).aabb = computeAABB tris
  shape : ∀ i, i < st.nodes.length →
    (0 < (st.nodes.getD i dNode).triangleCount ∧
      (st.nodes.getD i dNode).left = NO_CHILD ∧
      (st.nodes.getD i dNode).right = NO_CHILD) ∨
    ((st.nodes.getD i dNode).triangleCount = 0 ∧
      i < (st.nodes.getD i dNode).left ∧ (st.nodes.getD i dNode).left < st.nodes.length ∧
      i < (st.nodes.getD i dNode).right ∧ (st.nodes.getD i dNode).right < st.nodes.length)
  rangeBound : ∀ i, i < st.nodes.length → 0 < (st.nodes.getD i dNode).triangleCount →
    (st.nodes.getD i dNode).triangleOffset + (st.nodes.getD i dNode).triangleCount ≤
      tris.length
  cover : ∀ j, j < tris.length → ∃! i, i < st.nodes.length ∧
    0 < (st.nodes.getD i dNode).triangleCount ∧
    (st.nodes.getD i dNode).triangleOffset ≤ j ∧
    j < (st.nodes.getD i dNode).triangleOffset + (st.nodes.getD i dNode).triangleCount
  tasks : ∀ t ∈ st.queue, t.nodeIndex < st.nodes.length ∧
    (st.nodes.getD t.nodeIndex dNode).triangleOffset = t.start ∧
    (st.nodes.getD t.nodeIndex dNode).triangleCount = t.count ∧ 0 < t.count
  taskDistinct : st.queue.Pairwise fun a b => a.nodeIndex ≠ b.nodeIndex
  boxA : ∀ i, i < st.nodes.length → 0 < (st.nodes.getD i dNode).triangleCount →
    ∀ j, (st.nodes.getD i dNode).triangleOffset ≤ j →
      j < (st.nodes.getD i dNode).triangleOffset + (st.nodes.getD i dNode).triangleCount →
      triInBox (tris.getD (st.idx j) dTri) (st.nodes.getD i dNode).aabb
  boxB : ∀ i, i < st.nodes.length → (st.nodes.getD i dNode).triangleCount = 0 →
    boxLe (st.nodes.getD (st.nodes.getD i dNode).left dNode).aabb
        (st.nodes.getD i dNode).aabb ∧
      boxLe (st.nodes.getD (st.nodes.getD i dNode).right dNode).aabb
        (st.nodes.getD i dNode).aabb

/-! ## Concrete inputs used by counterexamples and witnesses -/

/-- A diagonal test ray from the origin. -/
def ray0 : Ray := ⟨Vec3.ofQ 0, ⟨1, 1, 1⟩⟩

/-- An emissive test material (`emission = (1,1,1)`, `emissiveStrength = 1`). -/
def emissiveMat : Material := ⟨Vec3.ofQ 1, 0, 1, ⟨1, 1, 1⟩, 1, 3 / 2, 0⟩

/-- A non-emissive metallic test material (`metallic = 1`, `transmission = 0`). -/
def metalMat : Material := ⟨Vec3.ofQ 1, 1, 1 / 2, Vec3.ofQ 0, 0, 3 / 2, 0⟩

/-- A null light sample (`pdf = 0`, so next-event estimation contributes
nothing). -/
def lsZero : LightSample := ⟨Vec3.ofQ 0, 0, Vec3.ofQ 0, 0⟩

/-- A surface hit at distance 1 on material 0. -/
def hitSurf : HitInfo := ⟨Vec3.ofQ 0, 1, ⟨0, 0, 1⟩, 0, ⟨0, 0⟩, true⟩

/-- A hit at distance 0 on material 1 (zero distance attenuation factor is
`1/(1+0) = 1`). -/
def hitEm : HitInfo := ⟨Vec3.ofQ 0, 0, ⟨0, 0, 1⟩, 1, ⟨0, 0⟩, true⟩

/-- Oracle data: emissive hit at distance 1 on material 0. -/
def bounceC2 : BounceData :=
  ⟨⟨Vec3.ofQ 0, 1, ⟨0, 0, 1⟩, 0, ⟨0, 0⟩, true⟩, lsZero, ⟨Vec3.ofQ 0, 0⟩, ⟨0, 0, 1⟩,
   ⟨Vec3.ofQ 0, 1⟩, 0⟩

/-- Environment whose first hit is emissive at distance 1. -/
def envC2 : TraceEnv := ⟨fun _ => emissiveMat, fun _ => bounceC2, fun v => v⟩

/-- Oracle data: plain surface bounce with BSDF value `(1,1,1)`, pdf 1. -/
def bounceUnit : BounceData := ⟨hitSurf, lsZero, ⟨Vec3.ofQ 0, 0⟩, ⟨0, 0, 1⟩, ⟨Vec3.ofQ 1, 1⟩, 0⟩

/-- Oracle data: surface bounce whose BSDF value `(2,2,2)` (pdf 1) doubles
the throughput; the Russian-roulette draw for this bounce is `0.97`. -/
def bounceGrow : BounceData :=
  ⟨hitSurf, lsZero, ⟨Vec3.ofQ 0, 0⟩, ⟨0, 0, 1⟩, ⟨Vec3.ofQ 2, 1⟩, 97 / 100⟩

/-- Oracle data: emissive hit (material 1) at distance 0. -/
def bounceEm : BounceData := ⟨hitEm, lsZero, ⟨Vec3.ofQ 0, 0⟩, ⟨0, 0, 1⟩, ⟨Vec3.ofQ 1, 1⟩, 0⟩

/-- Environment for the Russian-roulette counterexample: three unit
bounces, a throughput-doubling bounce at index 3 (draw `0.97`), then an
emissive hit at bounce 4. -/
def envC5 : TraceEnv :=
  ⟨fun i => if i = 1 then emissiveMat else metalMat,
   fun b => if b = 4 then bounceEm else if b = 3 then bounceGrow else bounceUnit,
   fun v => v⟩

/-- A camera with nonzero frame index. -/
def cam0 : CameraCPU := ⟨⟨0, 1, 14 / 5⟩, ⟨0, 0, -1⟩, ⟨1, 0, 0⟩, ⟨0, 1, 0⟩, 1, 1, 4, 4, 7⟩

/-- A renderer state mid-accumulation: nonzero frame counters and a
non-black pixel already in the output buffer. -/
def st0 : RendererState := ⟨5, cam0, [⟨1, 2, 3⟩], true⟩

/-- A degenerate point triangle at `(q, 0, 0)` (all vertices equal). -/
def ptTri (q : ℚ) : Triangle :=
  ⟨⟨q, 0, 0⟩, ⟨q, 0, 0⟩, ⟨q, 0, 0⟩, Vec3.ofQ 0, Vec3.ofQ 0, Vec3.ofQ 0,
   ⟨0, 0⟩, ⟨0, 0⟩, ⟨0, 0⟩, 0⟩

/-- Five identical point triangles: every centroid coincides, so every SAH
axis is degenerate and the two-pointer partition puts the whole range on
one side. -/
def degTris : List Triangle := List.replicate 5 dTri

/-- A single well-spread nondegenerate triangle. -/
def triA : Triangle :=
  ⟨⟨0, 0, 0⟩, ⟨1, 0, 0⟩, ⟨0, 1, 0⟩, ⟨0, 0, 1⟩, ⟨0, 0, 1⟩, ⟨0, 0, 1⟩,
   ⟨0, 0⟩, ⟨1, 0⟩, ⟨0, 1⟩, 0⟩

/-- Two coincident point triangles: both slices of the split at index 1
have zero surface area, making the code's SAH score `1` where the spec's
bare formula gives `0`. -/
def sahCexTris : List Triangle := [ptTri 0, ptTri 0]

/-- Six point triangles spread along the x axis. -/
def sahTris : List Triangle := [ptTri 0, ptTri 1, ptTri 2, ptTri 3, ptTri 4, ptTri 5]

/-- A large box every test ray hits. -/
def bigBox : AABBX :=
  ⟨⟨XQ.fin (-1000), XQ.fin (-1000), XQ.fin (-1000)⟩,
   ⟨XQ.fin 1000, XQ.fin 1000, XQ.fin 1000⟩⟩

/-- Leaf node used in the deep-vine tree. -/
def vineLeaf : BVHNode := ⟨bigBox, NO_CHILD, NO_CHILD, 0, 1⟩

/-- A well-formed left-leaning vine with 64 interior nodes (even indices
`0, 2, …, 126`, each with its interior child on top of the traversal
stack) and 65 leaves: depth 64, so the depth-first stack needs 65 slots
and overflows the fixed 64-entry stack. -/
def vineNodes : List BVHNode :=
  (List.range 129).map fun i =>
    if i % 2 = 1 ∨ i = 128 then vineLeaf
    else if i = 126 then ⟨bigBox, 128, 127, 0, 0⟩
    else ⟨bigBox, i + 2, i + 1, 0, 0⟩

/-- Triangle buffer for the vine tree. -/
def vineTris : List Triangle := [dTri]

/-- A single-leaf tree holding one triangle. -/
def oneLeafNodes : List BVHNode := [⟨bigBox, NO_CHILD, NO_CHILD, 0, 1⟩]

/-- Triangle buffer for the single-leaf tree. -/
def oneTris : List Triangle := [triA]

/-! # Theorems -/

/-! ### Componentwise vector lemmas -/

@[simp]
theorem Vec3.x_add (a b : Vec3) : (a + b).x = a.x + b.x := rfl

@[simp]
theorem Vec3.y_add (a b : Vec3) : (a + b).y = a.y + b.y := rfl

@[simp]
theorem Vec3.z_add (a b : Vec3) : (a + b).z = a.z + b.z := rfl

@[simp]
theorem Vec3.x_sub (a b : Vec3) : (a - b).x = a.x - b.x := rfl

@[simp]
theorem Vec3.y_sub (a b : Vec3) : (a - b).y = a.y - b.y := rfl

@[simp]
theorem Vec3.z_sub (a b : Vec3) : (a - b).z = a.z - b.z := rfl

@[simp]
theorem Vec3.x_mul (a b : Vec3) : (a * b).x = a.x * b.x := rfl

@[simp]
theorem Vec3.y_mul (a b : Vec3) : (a * b).y = a.y * b.y := rfl

@[simp]
theorem Vec3.z_mul (a b : Vec3) : (a * b).z = a.z * b.z := rfl

@[simp]
theorem Vec3.x_scale (a : Vec3) (s : ℚ) : (a.scale s).x = a.x * s := rfl

@[simp]
theorem Vec3.y_scale (a : Vec3) (s : ℚ) : (a.scale s).y = a.y * s := rfl

@[simp]
theorem Vec3.z_scale (a : Vec3) (s : ℚ) : (a.scale s).z = a.z * s := rfl

@[simp]
theorem Vec3.x_ofQ (s : ℚ) : (Vec3.ofQ s).x = s := rfl

@[simp]
theorem Vec3.y_ofQ (s : ℚ) : (Vec3.ofQ s).y = s := rfl

@[simp]
theorem Vec3.z_ofQ (s : ℚ) : (Vec3.ofQ s).z = s := rfl

theorem Vec3.eq_of_comps {a b : Vec3} (hx : a.x = b.x) (hy : a.y = b.y) (hz : a.z = b.z) :
    a = b := by
  cases a
  cases b
  simp only [Vec3.mk.injEq]
  exact ⟨hx, hy, hz⟩

/-! ### C10: progressive accumulation is the streaming mean -/

/-- C10: with a fixed camera, the kernel's per-pixel accumulation update —
writing the new radiance directly when `frameIndex = 0` and otherwise
blending `mix(previous, new, 1/(frameIndex+1))` — makes the stored value
after processing frames `0..N` equal the arithmetic mean of the `N+1`
per-frame radiance samples (whatever the buffer held before frame 0), and
the `frameIndex > 0` update is exactly the streaming-mean recurrence
`mean_new = mean_old + (x - mean_old)/(n+1)`. -/
theorem c10_accumulation_is_mean :
    (∀ (b0 : Vec3) (sample : ℕ → Vec3) (n : ℕ),
        accumSeq b0 sample n = (sampleSum sample n).scale (1 / ((n : ℚ) + 1))) ∧
    (∀ (n : ℕ) (meanOld x : Vec3),
        accumulatePixel (n + 1) meanOld x =
          meanOld + (x - meanOld).scale (1 / (((n : ℚ) + 1) + 1))) := by
  constructor
  · intro b0 sample n
    induction n with
    | zero =>
      refine Vec3.eq_of_comps ?_ ?_ ?_ <;>
        simp [accumSeq, accumulatePixel, sampleSum]
    | succ n ih =>
      have h1 : ((n : ℚ) + 1) ≠ 0 := by positivity
      have h2 : ((n : ℚ) + 1 + 1) ≠ 0 := by positivity
      rw [accumSeq, ih]
      rw [accumulatePixel, if_pos (Nat.succ_pos n)]
      refine Vec3.eq_of_comps ?_ ?_ ?_ <;>
        simp only [mix, sampleSum, Vec3.x_add, Vec3.y_add, Vec3.z_add, Vec3.x_scale,
          Vec3.y_scale, Vec3.z_scale] <;>
        push_cast <;>
        field_simp <;>
        ring
  · intro n meanOld x
    rw [accumulatePixel, if_pos (Nat.succ_pos n)]
    refine Vec3.eq_of_comps ?_ ?_ ?_ <;>
      simp only [mix, Vec3.x_add, Vec3.y_add, Vec3.z_add, Vec3.x_sub, Vec3.y_sub, Vec3.z_sub,
        Vec3.x_scale, Vec3.y_scale, Vec3.z_scale] <;>
      push_cast <;>
      ring

/-! ### C3: camera mutation resets -/

/-- C3 counterexample: after a camera mutation the accumulation (output)
buffer has not been zeroed — `moveCamera` leaves the previously accumulated
pixel `(1,2,3)` in place, and `(1,2,3)` is not the zero colour. -/
theorem c3_cex_buffer_not_zeroed :
    (moveCamera 1 0 0 st0).outputBuffer = [⟨1, 2, 3⟩] ∧
      ¬ ((⟨1, 2, 3⟩ : Vec3) = ⟨0, 0, 0⟩) :=
  ⟨rfl, by decide⟩

/-- C3 (amended): after any camera mutation (`moveCamera` or
`rotateCamera`) and before the next dispatch, the host frame counter and
the camera's `frameIndex` have been reset to 0; the accumulation buffer is
left untouched, and no stale sample can contribute because the kernel's
frame-0 update overwrites the stored pixel unconditionally. -/
theorem c3_reset_behavior :
    (∀ (f r u : ℚ) (st : RendererState),
        (moveCamera f r u st).frameIndex = 0 ∧
        (moveCamera f r u st).camera.frameIndex = 0 ∧
        (moveCamera f r u st).outputBuffer = st.outputBuffer) ∧
    (∀ (nf nr nu : Vec3) (st : RendererState),
        (rotateCamera nf nr nu st).frameIndex = 0 ∧
        (rotateCamera nf nr nu st).camera.frameIndex = 0 ∧
        (rotateCamera nf nr nu st).outputBuffer = st.outputBuffer) ∧
    (∀ prev x : Vec3, accumulatePixel 0 prev x = x) :=
  ⟨fun _ _ _ _ => ⟨rfl, rfl, rfl⟩, fun _ _ _ _ => ⟨rfl, rfl, rfl⟩, fun _ _ => rfl⟩

/-! ### C2: emissive hits terminate the path -/

/-- C2 (amended): whenever the closest hit's material has any strictly
positive emission component, the kernel adds
`throughput × emission × emissiveStrength × 1/(1 + t²)` (the code applies a
distance-squared attenuation factor on top of the spec's product) to the
path result and terminates the path: the loop returns immediately, taking
no further bounces. -/
theorem c2_emissive_adds_and_terminates (env : TraceEnv) (fuel bounce : ℕ)
    (throughput result : Vec3) (ray : Ray)
    (hmiss : ¬ (env.bounce bounce).hit.t < 0)
    (hem : 0 < (env.materials (env.bounce bounce).hit.materialIndex).emission.x ∨
      0 < (env.materials (env.bounce bounce).hit.materialIndex).emission.y ∨
      0 < (env.materials (env.bounce bounce).hit.materialIndex).emission.z) :
    traceLoop env (fuel + 1) bounce throughput result ray =
      result +
        (((throughput * (env.materials (env.bounce bounce).hit.materialIndex).emission).scale
              (env.materials (env.bounce bounce).hit.materialIndex).emissiveStrength).scale
          (1 / (1 + (env.bounce bounce).hit.t * (env.bounce bounce).hit.t))) := by
  simp only [traceLoop]
  rw [if_neg hmiss, if_pos hem]

/-- Witness for C2: a concrete environment whose first hit (distance 1) is
emissive with emission `(1,1,1)` and strength 1. -/
theorem c2_emissive_adds_and_terminates_witness :
    traceLoop envC2 8 0 (Vec3.ofQ 1) (Vec3.ofQ 0) ray0 =
      Vec3.ofQ 0 +
        (((Vec3.ofQ 1 * (envC2.materials (envC2.bounce 0).hit.materialIndex).emission).scale
              (envC2.materials (envC2.bounce 0).hit.materialIndex).emissiveStrength).scale
          (1 / (1 + (envC2.bounce 0).hit.t * (envC2.bounce 0).hit.t))) :=
  c2_emissive_adds_and_terminates envC2 7 0 (Vec3.ofQ 1) (Vec3.ofQ 0) ray0
    (by decide) (by decide)

/-- C2 counterexample: at an emissive hit of distance 1 the kernel adds
`throughput × emission × emissiveStrength × 1/(1+1²) = (1/2,1/2,1/2)`,
not the claim's exact `throughput × emission × emissiveStrength = (1,1,1)`:
the code multiplies in a distance attenuation `1/(1+t²)` that the claim
omits. -/
theorem c2_cex_distance_attenuation :
    trace envC2 ray0 = ⟨1 / 2, 1 / 2, 1 / 2⟩ ∧
    (Vec3.ofQ 1 * emissiveMat.emission).scale emissiveMat.emissiveStrength = ⟨1, 1, 1⟩ ∧
    ¬ ((⟨1 / 2, 1 / 2, 1 / 2⟩ : Vec3) = ⟨1, 1, 1⟩) :=
  ⟨by decide, by decide, by decide⟩

/-! ### C5: Russian roulette -/

/-- C5 (amended): at every bounce with index greater than 2 that reaches
the end of the loop body (a non-miss, non-emissive hit with positive BSDF
pdf), the kernel applies Russian roulette with survival probability equal
to the maximum channel of the updated throughput — with no ceiling/clamp —
terminating the path when the uniform draw exceeds that probability and
otherwise dividing the throughput by it. -/
theorem c5_rr_survival_is_max_channel (env : TraceEnv) (fuel bounce : ℕ)
    (throughput result : Vec3) (ray : Ray)
    (hb : 2 < bounce)
    (hmiss : ¬ (env.bounce bounce).hit.t < 0)
    (hem : ¬ (0 < (env.materials (env.bounce bounce).hit.materialIndex).emission.x ∨
      0 < (env.materials (env.bounce bounce).hit.materialIndex).emission.y ∨
      0 < (env.materials (env.bounce bounce).hit.materialIndex).emission.z))
    (hpdf : ¬ (env.bounce bounce).bsdfEval.pdf ≤ 0) :
    let data := env.bounce bounce
    let hit := data.hit
    let material := env.materials hit.materialIndex
    let transmissionProb := (1 - material.metallic) * material.transmission
    let result1 :=
      if DO_MIS = true ∧ transmissionProb < 9 / 10 then
        if 0 < data.lightSample.pdf then
          result + throughput *
            (((data.lightSample.intensity * data.lightEval.value).scale
                (powerHeuristic 1 data.lightSample.pdf 1 data.lightEval.pdf)).divQ
              (max data.lightSample.pdf EPSILON))
        else result
      else result
    let throughput1 :=
      if DO_MIS = true ∧ 0 < transmissionProb then
        throughput * Vec3.ofQ ((if hit.isFront then 1 / material.ior else material.ior) *
          (if hit.isFront then 1 / material.ior else material.ior))
      else throughput
    let nextRay : Ray := ⟨hit.position + data.bsdfDir.scale EPSILON, env.normalizeV data.bsdfDir⟩
    let throughput2 := throughput1 * (data.bsdfEval.value.divQ (max data.bsdfEval.pdf EPSILON))
    let p := rrSurvivalProb throughput2
    (p < data.rrRand → traceLoop env (fuel + 1) bounce throughput result ray = result1) ∧
    (¬ p < data.rrRand →
      traceLoop env (fuel + 1) bounce throughput result ray =
        traceLoop env fuel (bounce + 1) (throughput2.divQ p) result1 nextRay) := by
  simp only [traceLoop]
  constructor
  · intro hrr
    rw [if_neg hmiss, if_neg hem, if_neg hpdf, if_pos hb, if_pos hrr]
  · intro hrr
    rw [if_neg hmiss, if_neg hem, if_neg hpdf, if_pos hb, if_neg hrr]

/-- Witness for C5: at bounce 3 of the concrete environment `envC5` the
throughput has been updated to `(2,2,2)`, the survival probability is 2,
the draw is `0.97 < 2`, so the path survives and continues into bounce 4's
emissive hit; both sides evaluate to the same radiance. -/
theorem c5_rr_survival_is_max_channel_witness :
    traceLoop envC5 5 3 (Vec3.ofQ 1) (Vec3.ofQ 0) ray0 =
      traceLoop envC5 4 4 (Vec3.ofQ 1) (Vec3.ofQ 0) ray0 := by
  have h :=
    (c5_rr_survival_is_max_channel envC5 4 3 (Vec3.ofQ 1) (Vec3.ofQ 0) ray0
      (by decide) (by decide) (by decide) (by decide)).2 (by decide)
  rw [h]
  decide

/-- C5 counterexample: the claim's ceiling does not exist in the code.  In
the run of `trace` on `envC5`, bounce 3 performs Russian roulette with
survival probability `rrSurvivalProb (2,2,2) = 2`, which exceeds every
ceiling of at most `0.95`; the uniform draw for that bounce is `0.97`,
which is greater than `0.95` (so the claimed clamped roulette would have
terminated the path with zero radiance), yet the path survives and collects
the emissive radiance `(1,1,1)` at bounce 4. -/
theorem c5_cex_no_ceiling :
    trace envC5 ray0 = ⟨1, 1, 1⟩ ∧
    rrSurvivalProb ⟨2, 2, 2⟩ = 2 ∧
    ¬ ((2 : ℚ) ≤ 19 / 20) ∧ ((19 : ℚ) / 20 < 97 / 100) ∧
    ¬ ((⟨1, 1, 1⟩ : Vec3) = ⟨0, 0, 0⟩) :=
  ⟨by decide, by decide, by decide, by decide, by decide⟩

/-! ### C7: empty scene -/

/-- C7: on the empty triangle list the builder does return, without
crashing, a single node with an inverted/empty AABB (`min = +∞`,
`max = -∞`) — but that node has `triangleCount = 0` with sentinel children,
so the kernel traversal takes the interior branch, pushes the sentinel
`0xffffffff` twice, and its next pop reads `bvhNodes[0xffffffff]` out of
bounds (the inverted-infinite AABB passes the slab test for every ray
direction, as the division conventions give `tmin = -∞ ≤ tmax = +∞`).
Traversal therefore does not return the claimed automatic miss. -/
theorem c7_empty_scene_traversal_oob :
    buildBVH [] = ([⟨computeAABB [], NO_CHILD, NO_CHILD, 0, 0⟩], []) ∧
    traverseBVH (buildBVH []).1 (buildBVH []).2 ray0 = Except.error TravErr.oobNode :=
  ⟨by decide, by decide⟩

/-! ### C8: traversal stack counterexample -/

/-- C8 counterexample: `vineNodes` is a structurally valid (well-formed)
BVH node array — 64 interior nodes chained through their left children —
on which traversal of a ray that hits every box pushes 65 entries and
overflows the fixed 64-entry stack (`stack[64]` would be written out of
bounds).  Moreover the claim's parenthetical degenerate case of a 0-triangle
single-leaf tree does not terminate with a miss either: traversal of the
builder's empty-scene output reads node `0xffffffff` out of bounds
(see C7). -/
theorem c8_cex_stack_overflow :
    WellFormedBVH vineNodes ∧
    traverseBVH vineNodes vineTris ray0 = Except.error TravErr.stackOverflow ∧
    traverseBVH (buildBVH []).1 (buildBVH []).2 ray0 = Except.error TravErr.oobNode := by
  refine ⟨by decide, ?_, by decide⟩
  decide

/-! ### Order lemmas for the extended rationals -/

theorem XQ.ble_refl (a : XQ) : XQ.ble a a = true := by
  cases a <;> simp [XQ.ble]

theorem XQ.ble_trans {a b c : XQ} (h1 : XQ.ble a b = true) (h2 : XQ.ble b c = true) :
    XQ.ble a c = true := by
  cases a <;> cases b <;> cases c <;> simp [XQ.ble] at * <;> linarith

theorem XQ.ble_of_blt {a b : XQ} (h : XQ.blt a b = true) : XQ.ble a b = true := by
  cases a <;> cases b <;> simp [XQ.ble, XQ.blt] at * <;> linarith

theorem XQ.ble_of_not_blt {a b : XQ} (h : XQ.blt a b = false) : XQ.ble b a = true := by
  cases a <;> cases b <;> simp [XQ.ble, XQ.blt] at * <;> linarith

theorem XQ.ble_posInf (a : XQ) : XQ.ble a XQ.posInf = true := by
  cases a <;> simp [XQ.ble]

theorem XQ.eq_posInf_of_posInf_ble {a : XQ} (h : XQ.ble XQ.posInf a = true) : a = XQ.posInf := by
  cases a <;> simp [XQ.ble] at *

/-! ### C6: SAH split scoring -/

theorem findBestSplit_eq_fold (tris : List Triangle) (s e a bins : ℕ) :
    findBestSplit tris s e a bins =
      ((List.range' 1 (bins - 1)).foldl (sahFoldStep tris s e a bins)
        ((XQ.posInf, s) : XQ × ℕ)).2 :=
  rfl

theorem sahFoldStep_invalid {tris : List Triangle} {s e a bins : ℕ} (acc : XQ × ℕ) {j : ℕ}
    (hval : s + (e - s) * j / bins = s ∨ s + (e - s) * j / bins = e) :
    sahFoldStep tris s e a bins acc j = acc := by
  simp only [sahFoldStep, if_pos hval]

theorem sahFoldStep_better {tris : List Triangle} {s e a bins : ℕ} (acc : XQ × ℕ) {j : ℕ}
    (hval : ¬ (s + (e - s) * j / bins = s ∨ s + (e - s) * j / bins = e))
    (hlt : XQ.blt (computeSAH tris s e a (s + (e - s) * j / bins)) acc.1 = true) :
    sahFoldStep tris s e a bins acc j =
      (computeSAH tris s e a (s + (e - s) * j / bins), s + (e - s) * j / bins) := by
  simp only [sahFoldStep, if_neg hval, if_pos hlt]

theorem sahFoldStep_keep {tris : List Triangle} {s e a bins : ℕ} (acc : XQ × ℕ) {j : ℕ}
    (hval : ¬ (s + (e - s) * j / bins = s ∨ s + (e - s) * j / bins = e))
    (hlt : XQ.blt (computeSAH tris s e a (s + (e - s) * j / bins)) acc.1 = false) :
    sahFoldStep tris s e a bins acc j = acc := by
  simp only [sahFoldStep, if_neg hval]
  rw [if_neg]
  simp [hlt]

theorem sahFold_spec (tris : List Triangle) (s e a bins : ℕ) :
    ∀ (L : List ℕ) (acc : XQ × ℕ),
      (acc = ((XQ.posInf, s) : XQ × ℕ) ∨ acc.1 = computeSAH tris s e a acc.2) →
      (L.foldl (sahFoldStep tris s e a bins) acc = ((XQ.posInf, s) : XQ × ℕ) ∨
        (L.foldl (sahFoldStep tris s e a bins) acc).1 =
          computeSAH tris s e a (L.foldl (sahFoldStep tris s e a bins) acc).2) ∧
      XQ.ble (L.foldl (sahFoldStep tris s e a bins) acc).1 acc.1 = true ∧
      (∀ i ∈ L, ¬ (s + (e - s) * i / bins = s ∨ s + (e - s) * i / bins = e) →
        XQ.ble (L.foldl (sahFoldStep tris s e a bins) acc).1
          (computeSAH tris s e a (s + (e - s) * i / bins)) = true) := by
  intro L
  induction L with
  | nil =>
    intro acc hacc
    exact ⟨hacc, XQ.ble_refl _, fun i hi => absurd hi (List.not_mem_nil i)⟩
  | cons j L ih =>
    intro acc hacc
    simp only [List.foldl_cons]
    by_cases hval : s + (e - s) * j / bins = s ∨ s + (e - s) * j / bins = e
    · rw [sahFoldStep_invalid acc hval]
      obtain ⟨h1, h2, h3⟩ := ih acc hacc
      refine ⟨h1, h2, ?_⟩
      intro i hi hvi
      rcases List.mem_cons.mp hi with hij | hiL
      · subst hij
        exact absurd hval hvi
      · exact h3 i hiL hvi
    · by_cases hlt : XQ.blt (computeSAH tris s e a (s + (e - s) * j / bins)) acc.1 = true
      · rw [sahFoldStep_better acc hval hlt]
        obtain ⟨h1, h2, h3⟩ :=
          ih (computeSAH tris s e a (s + (e - s) * j / bins), s + (e - s) * j / bins)
            (Or.inr rfl)
        refine ⟨h1, XQ.ble_trans h2 (XQ.ble_of_blt hlt), ?_⟩
        intro i hi hvi
        rcases List.mem_cons.mp hi with hij | hiL
        · subst hij
          exact h2
        · exact h3 i hiL hvi
      · rw [sahFoldStep_keep acc hval (Bool.not_eq_true _ ▸ hlt)]
        obtain ⟨h1, h2, h3⟩ := ih acc hacc
        refine ⟨h1, h2, ?_⟩
        intro i hi hvi
        rcases List.mem_cons.mp hi with hij | hiL
        · subst hij
          exact XQ.ble_trans h2 (XQ.ble_of_not_blt (Bool.not_eq_true _ ▸ hlt))
        · exact h3 i hiL hvi

/-- C6 (amended): the surface-area variant scores every candidate split
with `computeSAH = TRAVERSAL_COST + (leftSA·leftCount + rightSA·rightCount)
× INTERSECTION_TEST_COST` — a strictly monotone affine image of the spec's
bare score `leftSA·leftCount + rightSA·rightCount`, so both orders agree —
and `findBestSplit` returns a split index whose cost (equivalently, whose
bare surface-area score) is minimal over all candidate planes on the single
axis it is given, not over all three axes. -/
theorem c6_sah_minimal_selection :
    (∀ (tris : List Triangle) (s e a m : ℕ),
        computeSAH tris s e a m =
          XQ.xadd (XQ.fin TRAVERSAL_COST)
            (XQ.xmul (sahCostSpec tris s e m) (XQ.fin INTERSECTION_TEST_COST))) ∧
    (∀ x y : XQ,
        XQ.ble (XQ.xadd (XQ.fin TRAVERSAL_COST) (XQ.xmul x (XQ.fin INTERSECTION_TEST_COST)))
            (XQ.xadd (XQ.fin TRAVERSAL_COST) (XQ.xmul y (XQ.fin INTERSECTION_TEST_COST))) =
          XQ.ble x y) ∧
    (∀ (tris : List Triangle) (s e a bins i : ℕ), 1 ≤ i → i < bins →
        ¬ (s + (e - s) * i / bins = s ∨ s + (e - s) * i / bins = e) →
        XQ.ble (computeSAH tris s e a (findBestSplit tris s e a bins))
            (computeSAH tris s e a (s + (e - s) * i / bins)) = true ∧
        XQ.ble (sahCostSpec tris s e (findBestSplit tris s e a bins))
            (sahCostSpec tris s e (s + (e - s) * i / bins)) = true) := by
  have haff : ∀ (tris : List Triangle) (s e a m : ℕ),
      computeSAH tris s e a m =
        XQ.xadd (XQ.fin TRAVERSAL_COST)
          (XQ.xmul (sahCostSpec tris s e m) (XQ.fin INTERSECTION_TEST_COST)) := by
    intro tris s e a m
    rfl
  have hmono : ∀ x y : XQ,
      XQ.ble (XQ.xadd (XQ.fin TRAVERSAL_COST) (XQ.xmul x (XQ.fin INTERSECTION_TEST_COST)))
          (XQ.xadd (XQ.fin TRAVERSAL_COST) (XQ.xmul y (XQ.fin INTERSECTION_TEST_COST))) =
        XQ.ble x y := by
    intro x y
    cases x <;> cases y <;>
      simp [XQ.xadd, XQ.xmul, XQ.ble, TRAVERSAL_COST, INTERSECTION_TEST_COST] <;>
      constructor <;> intro h <;> linarith
  refine ⟨haff, hmono, ?_⟩
  intro tris s e a bins i h1 h2 hvi
  have hmain :
      XQ.ble (computeSAH tris s e a (findBestSplit tris s e a bins))
        (computeSAH tris s e a (s + (e - s) * i / bins)) = true := by
    have hspec :=
      sahFold_spec tris s e a bins (List.range' 1 (bins - 1))
        ((XQ.posInf, s) : XQ × ℕ) (Or.inl rfl)
    obtain ⟨hP, _, hall⟩ := hspec
    have hmem : i ∈ List.range' 1 (bins - 1) := by
      rw [List.mem_range']
      exact ⟨i - 1, by omega, by omega⟩
    have hle := hall i hmem hvi
    rcases hP with hfin | hfin
    · have hcost : computeSAH tris s e a (s + (e - s) * i / bins) = XQ.posInf := by
        apply XQ.eq_posInf_of_posInf_ble
        rw [hfin] at hle
        exact hle
      have hbest : findBestSplit tris s e a bins = s := by
        rw [findBestSplit_eq_fold, hfin]
      rw [hbest, hcost]
      exact XQ.ble_posInf _
    · have hbest :
          computeSAH tris s e a (findBestSplit tris s e a bins) =
            (List.foldl (sahFoldStep tris s e a bins) ((XQ.posInf, s) : XQ × ℕ)
                (List.range' 1 (bins - 1))).1 := by
        rw [findBestSplit_eq_fold, ← hfin]
      rw [hbest]
      exact hle
  refine ⟨hmain, ?_⟩
  have := hmono (sahCostSpec tris s e (findBestSplit tris s e a bins))
    (sahCostSpec tris s e (s + (e - s) * i / bins))
  rw [← this]
  rw [← haff tris s e a (findBestSplit tris s e a bins), ← haff tris s e a (s + (e - s) * i / bins)]
  exact hmain

/-- Witness for C6: on six point triangles spread along x with the default
12 bins, candidate `i = 4` (split index 2) is valid, and the selected
split's cost is no greater than that candidate's cost under both the code's
score and the spec's bare score. -/
theorem c6_sah_minimal_selection_witness :
    XQ.ble (computeSAH sahTris 0 6 0 (findBestSplit sahTris 0 6 0 12))
        (computeSAH sahTris 0 6 0 (0 + (6 - 0) * 4 / 12)) = true ∧
    XQ.ble (sahCostSpec sahTris 0 6 (findBestSplit sahTris 0 6 0 12))
        (sahCostSpec sahTris 0 6 (0 + (6 - 0) * 4 / 12)) = true :=
  c6_sah_minimal_selection.2.2 sahTris 0 6 0 12 4 (by decide) (by decide) (by decide)

/-- C6 counterexample: no candidate is scored with the claim's exact
formula.  In the surface-area variant, the candidate split of
`sahCexTris = [point, point]` at index 1 has bare surface-area score 0 but
is scored `computeSAH = 1` (`TRAVERSAL_COST + 2 × 0`).  In the
all-three-axes variant the recorded score is the triangle-count product:
scanning the two spread centroids records cost `1 = leftCount × rightCount`
for the chosen plane, again not the claimed surface-area expression (which
is 0 for these point clusters). -/
theorem c6_cex_score_not_bare_sah :
    computeSAH sahCexTris 0 2 0 1 = XQ.fin 1 ∧
    sahCostSpec sahCexTris 0 2 1 = XQ.fin 0 ∧
    sahAxisScan [⟨0, 0, 0⟩, ⟨1, 0, 0⟩] 0 ⟨XQ.posInf, XQ.fin 0, 0⟩ =
      ⟨XQ.fin 1, XQ.fin (1 / 32), 0⟩ ∧
    ¬ (XQ.fin (1 : ℚ) = XQ.fin 0) :=
  ⟨by decide, by decide, by decide, by decide⟩

/-! ### C9: builder termination -/

theorem pow2_split {l r c : ℕ} (hl : 1 ≤ l) (hr : 1 ≤ r) (hc : 5 ≤ c) (hsum : l + r = c) :
    2 ^ l + 2 ^ r < 2 ^ c := by
  have key : ∀ a b : ℕ, a + b = c → a ≤ c - 2 → b ≤ c - 1 → 2 ^ a + 2 ^ b < 2 ^ c := by
    intro a b hab hale hble
    have h1 : 2 ^ a ≤ 2 ^ (c - 2) := Nat.pow_le_pow_right (by norm_num) hale
    have h2 : 2 ^ b ≤ 2 ^ (c - 1) := Nat.pow_le_pow_right (by norm_num) hble
    have h6 : 2 ^ (c - 2) < 2 ^ (c - 1) := Nat.pow_lt_pow_right (by norm_num) (by omega)
    have h7 : 2 ^ (c - 1) + 2 ^ (c - 1) = 2 ^ c := by
      rw [← two_mul, ← pow_succ']
      congr 1
      omega
    linarith
  rcases (by omega : l ≤ c - 2 ∧ r ≤ c - 1 ∨ r ≤ c - 2 ∧ l ≤ c - 1) with ⟨h1, h2⟩ | ⟨h1, h2⟩
  · exact key l r hsum h1 h2
  · have := key r l (by omega) h1 h2
    omega

theorem buildStep_queue_shape (tris : List Triangle) (st : BuildState) (t : BuildTask)
    (rest : List BuildTask) :
    (buildStep tris st t rest).queue = rest ∨
    (MAX_TRIANGLES_PER_NODE < t.count ∧
      ∃ lc rc i1 i2 o1 o2, 1 ≤ lc ∧ 1 ≤ rc ∧ lc + rc = t.count ∧
        (buildStep tris st t rest).queue =
          (⟨o2, rc, i2⟩ : BuildTask) :: (⟨o1, lc, i1⟩ : BuildTask) :: rest) := by
  by_cases h1 : t.count ≤ MAX_TRIANGLES_PER_NODE
  · left
    simp only [buildStep, if_pos h1]
  · simp only [buildStep, if_neg h1]
    split
    · left
      rfl
    · rename_i hg
      right
      rw [not_or] at hg
      obtain ⟨hg1, hg2⟩ := hg
      refine ⟨by omega, _, _, _, _, _, _, ?_, ?_, ?_, rfl⟩
      · omega
      · omega
      · omega

theorem buildRun_terminates :
    ∀ (fuel : ℕ) (tris : List Triangle) (st : BuildState),
      buildFuel st ≤ fuel → (buildRun tris fuel st).queue = [] := by
  intro fuel
  induction fuel with
  | zero =>
    intro tris st h
    cases hq : st.queue with
    | nil => simpa [buildRun] using hq
    | cons t rest =>
      exfalso
      have : 0 < buildFuel st := by
        rw [buildFuel, hq]
        have : 0 < 2 ^ t.count := Nat.pos_pow_of_pos _ (by norm_num)
        simp only [List.map_cons, List.sum_cons]
        omega
      omega
  | succ fuel ih =>
    intro tris st h
    cases hq : st.queue with
    | nil => simp [buildRun, hq]
    | cons t rest =>
      rw [buildRun, hq]
      apply ih
      have hsum : buildFuel st = 2 ^ t.count + (rest.map fun u => 2 ^ u.count).sum := by
        rw [buildFuel, hq]
        simp
      rcases buildStep_queue_shape tris st t rest with hshape | ⟨hbig, lc, rc, i1, i2, o1, o2,
          hlc, hrc, hcnt, hshape⟩
      · have : buildFuel (buildStep tris st t rest) = (rest.map fun u => 2 ^ u.count).sum := by
          rw [buildFuel, hshape]
        have hpos : 0 < 2 ^ t.count := Nat.pos_pow_of_pos _ (by norm_num)
        omega
      · have hlt : 2 ^ rc + 2 ^ lc < 2 ^ t.count :=
          (by omega : 2 ^ lc + 2 ^ rc < 2 ^ t.count → 2 ^ rc + 2 ^ lc < 2 ^ t.count)
            (pow2_split hlc hrc (by
              have : MAX_TRIANGLES_PER_NODE = 4 := rfl
              omega) hcnt)
        have : buildFuel (buildStep tris st t rest) =
            2 ^ rc + (2 ^ lc + (rest.map fun u => 2 ^ u.count).sum) := by
          rw [buildFuel, hshape]
          simp
        omega

/-- C9: `buildBVH` terminates on every input triangle list — running the
work loop with fuel `Σ 2^count` over the initial queue empties the queue —
and when the two-pointer partition of a popped task's range fails to
produce two non-empty sub-ranges (its returned pointer is at or before the
range start, or at or past the range end), that node is kept as a leaf:
the node array is unchanged and no child tasks are pushed. -/
theorem c9_build_terminates_on_degenerate_split :
    (∀ tris : List Triangle,
        (buildRun tris (buildFuel (initState tris)) (initState tris)).queue = []) ∧
    (∀ (tris : List Triangle) (st : BuildState) (t : BuildTask) (rest : List BuildTask),
        MAX_TRIANGLES_PER_NODE < t.count →
        (let choice := findSplitV1 (st.nodes.getD t.nodeIndex dNode).aabb
            ((List.range t.count).map fun i =>
              computeCentroid (tris.getD (st.idx (t.start + i)) dTri))
         let pr := partGo tris choice.axisSel choice.splitPos (t.count + 2) st.idx
            (t.start : ℤ) ((t.start : ℤ) + (t.count : ℤ) - 1)
         pr.2 ≤ (t.start : ℤ) ∨ ((t.start : ℤ) + (t.count : ℤ)) ≤ pr.2) →
        (buildStep tris st t rest).nodes = st.nodes ∧
        (buildStep tris st t rest).queue = rest) := by
  constructor
  · intro tris
    exact buildRun_terminates _ tris _ le_rfl
  · intro tris st t rest h1 h2
    constructor
    · simp only [buildStep, if_neg (by omega : ¬ t.count ≤ MAX_TRIANGLES_PER_NODE)]
      rw [if_pos h2]
    · simp only [buildStep, if_neg (by omega : ¬ t.count ≤ MAX_TRIANGLES_PER_NODE)]
      rw [if_pos h2]

/-- Witness for C9: five coincident point triangles make every SAH axis
degenerate and the partition leaves the whole range on one side; the step
keeps the root a leaf and pushes nothing. -/
theorem c9_build_terminates_on_degenerate_split_witness :
    (buildStep degTris (initState degTris) ⟨0, 5, 0⟩ []).nodes = (initState degTris).nodes ∧
    (buildStep degTris (initState degTris) ⟨0, 5, 0⟩ []).queue = [] :=
  c9_build_terminates_on_degenerate_split.2 degTris (initState degTris) ⟨0, 5, 0⟩ []
    (by decide) (by decide)

/-! ### C8: traversal termination and stack safety for bounded-depth trees -/

theorem weightB_pos (nodes : List BVHNode) (i : ℕ) : 1 ≤ weightB nodes i := by
  rw [weightB]
  split
  · exact le_rfl
  · split
    · omega
    · exact le_rfl

theorem weightB_interior {nodes : List BVHNode} {i : ℕ}
    (hc : ¬ 0 < (nodes.getD i dNode).triangleCount)
    (h : i < (nodes.getD i dNode).left ∧ (nodes.getD i dNode).left < nodes.length ∧
      i < (nodes.getD i dNode).right ∧ (nodes.getD i dNode).right < nodes.length) :
    weightB nodes i =
      1 + weightB nodes (nodes.getD i dNode).left + weightB nodes (nodes.getD i dNode).right := by
  rw [weightB, if_neg hc, dif_pos h]

theorem depthB_interior {nodes : List BVHNode} {i : ℕ}
    (hc : ¬ 0 < (nodes.getD i dNode).triangleCount)
    (h : i < (nodes.getD i dNode).left ∧ (nodes.getD i dNode).left < nodes.length ∧
      i < (nodes.getD i dNode).right ∧ (nodes.getD i dNode).right < nodes.length) :
    depthB nodes i =
      1 + max (depthB nodes (nodes.getD i dNode).left)
        (depthB nodes (nodes.getD i dNode).right) := by
  rw [depthB, if_neg hc, dif_pos h]

theorem descB_leaf {nodes : List BVHNode} {i : ℕ}
    (hc : 0 < (nodes.getD i dNode).triangleCount) : descB nodes i = {i} := by
  rw [descB, if_pos hc]

theorem descB_interior {nodes : List BVHNode} {i : ℕ}
    (hc : ¬ 0 < (nodes.getD i dNode).triangleCount)
    (h : i < (nodes.getD i dNode).left ∧ (nodes.getD i dNode).left < nodes.length ∧
      i < (nodes.getD i dNode).right ∧ (nodes.getD i dNode).right < nodes.length) :
    descB nodes i =
      {i} ∪ descB nodes (nodes.getD i dNode).left ∪ descB nodes (nodes.getD i dNode).right := by
  rw [descB, if_neg hc, dif_pos h]

theorem descB_self (nodes : List BVHNode) (i : ℕ) : i ∈ descB nodes i := by
  rw [descB]
  split
  · exact Finset.mem_singleton_self i
  · split
    · exact Finset.mem_union_left _ (Finset.mem_union_left _ (Finset.mem_singleton_self i))
    · exact Finset.mem_singleton_self i

theorem descB_mem_bounds {nodes : List BVHNode} (hwf : WellFormedBVH nodes) :
    ∀ m i, nodes.length - i ≤ m → i < nodes.length →
      ∀ j ∈ descB nodes i, i ≤ j ∧ j < nodes.length := by
  intro m
  induction m with
  | zero =>
    intro i h1 h2
    omega
  | succ m ih =>
    intro i h1 h2 j hj
    rcases hwf.2.1 i h2 with ⟨hleaf, _, _⟩ | ⟨hint, hl1, hl2, hr1, hr2, _⟩
    · rw [descB_leaf hleaf] at hj
      have := Finset.mem_singleton.mp hj
      omega
    · rw [descB_interior (by omega) ⟨hl1, hl2, hr1, hr2⟩] at hj
      rcases Finset.mem_union.mp hj with hj2 | hjr
      · rcases Finset.mem_union.mp hj2 with hji | hjl
        · have := Finset.mem_singleton.mp hji
          omega
        · have := ih (nodes.getD i dNode).left (by omega) hl2 j hjl
          omega
      · have := ih (nodes.getD i dNode).right (by omega) hr2 j hjr
        omega

theorem descB_parent {nodes : List BVHNode} (hwf : WellFormedBVH nodes) :
    ∀ m i, nodes.length - i ≤ m → i < nodes.length →
      ∀ j ∈ descB nodes i, j ≠ i →
        ∃ p ∈ descB nodes i, p < nodes.length ∧ (nodes.getD p dNode).triangleCount = 0 ∧
          ((nodes.getD p dNode).left = j ∨ (nodes.getD p dNode).right = j) := by
  intro m
  induction m with
  | zero =>
    intro i h1 h2
    omega
  | succ m ih =>
    intro i h1 h2 j hj hji
    rcases hwf.2.1 i h2 with ⟨hleaf, _, _⟩ | ⟨hint, hl1, hl2, hr1, hr2, _⟩
    · rw [descB_leaf hleaf] at hj
      exact absurd (Finset.mem_singleton.mp hj) hji
    · have hsub := descB_interior (show ¬ 0 < (nodes.getD i dNode).triangleCount by omega)
        ⟨hl1, hl2, hr1, hr2⟩
      rw [hsub] at hj
      rcases Finset.mem_union.mp hj with hj2 | hjr
      · rcases Finset.mem_union.mp hj2 with hji2 | hjl
        · exact absurd (Finset.mem_singleton.mp hji2) hji
        · by_cases hjleft : j = (nodes.getD i dNode).left
          · refine ⟨i, descB_self nodes i, h2, by omega, Or.inl hjleft.symm⟩
          · obtain ⟨p, hp1, hp2, hp3, hp4⟩ :=
              ih (nodes.getD i dNode).left (by omega) hl2 j hjl hjleft
            refine ⟨p, ?_, hp2, hp3, hp4⟩
            rw [hsub]
            exact Finset.mem_union_left _ (Finset.mem_union_right _ hp1)
      · by_cases hjright : j = (nodes.getD i dNode).right
        · refine ⟨i, descB_self nodes i, h2, by omega, Or.inr hjright.symm⟩
        · obtain ⟨p, hp1, hp2, hp3, hp4⟩ :=
            ih (nodes.getD i dNode).right (by omega) hr2 j hjr hjright
          refine ⟨p, ?_, hp2, hp3, hp4⟩
          rw [hsub]
          exact Finset.mem_union_right _ hp1

theorem uniqueParent_eq {nodes : List BVHNode} (hwf : WellFormedBVH nodes)
    {p q j : ℕ} (hp : p < nodes.length) (hq : q < nodes.length)
    (hpc : (nodes.getD p dNode).triangleCount = 0)
    (hqc : (nodes.getD q dNode).triangleCount = 0)
    (hpj : (nodes.getD p dNode).left = j ∨ (nodes.getD p dNode).right = j)
    (hqj : (nodes.getD q dNode).left = j ∨ (nodes.getD q dNode).right = j) :
    p = q := by
  by_contra hne
  rcases hwf.2.2 p hp q hq with hpq | hcp | hcq | ⟨h1, h2, h3, h4⟩
  · exact hne hpq
  · omega
  · omega
  · rcases hpj with hpj | hpj <;> rcases hqj with hqj | hqj <;> omega

theorem descB_child_not_mem {nodes : List BVHNode} (hwf : WellFormedBVH nodes)
    {i : ℕ} (hi : i < nodes.length)
    (hint : (nodes.getD i dNode).triangleCount = 0) :
    (nodes.getD i dNode).left ∉ descB nodes (nodes.getD i dNode).right ∧
    (nodes.getD i dNode).right ∉ descB nodes (nodes.getD i dNode).left := by
  rcases hwf.2.1 i hi with ⟨hleaf, _, _⟩ | ⟨_, hl1, hl2, hr1, hr2, hlr⟩
  · omega
  · constructor
    · intro hmem
      have hne : (nodes.getD i dNode).left ≠ (nodes.getD i dNode).right := hlr
      obtain ⟨p, hp1, hp2, hp3, hp4⟩ :=
        descB_parent hwf (nodes.length - (nodes.getD i dNode).right)
          (nodes.getD i dNode).right le_rfl hr2 (nodes.getD i dNode).left hmem hne
      have hpi : p = i := uniqueParent_eq hwf hp2 hi hp3 hint hp4 (Or.inl rfl)
      rw [hpi] at hp1
      have := descB_mem_bounds hwf (nodes.length - (nodes.getD i dNode).right)
        (nodes.getD i dNode).right le_rfl hr2 i hp1
      omega
    · intro hmem
      have hne : (nodes.getD i dNode).right ≠ (nodes.getD i dNode).left :=
        fun hc => hlr hc.symm
      obtain ⟨p, hp1, hp2, hp3, hp4⟩ :=
        descB_parent hwf (nodes.length - (nodes.getD i dNode).left)
          (nodes.getD i dNode).left le_rfl hl2 (nodes.getD i dNode).right hmem hne
      have hpi : p = i := uniqueParent_eq hwf hp2 hi hp3 hint hp4 (Or.inr rfl)
      rw [hpi] at hp1
      have := descB_mem_bounds hwf (nodes.length - (nodes.getD i dNode).left)
        (nodes.getD i dNode).left le_rfl hl2 i hp1
      omega

theorem descB_disjoint {nodes : List BVHNode} (hwf : WellFormedBVH nodes)
    {i : ℕ} (hi : i < nodes.length)
    (hint : (nodes.getD i dNode).triangleCount = 0) :
    descB nodes (nodes.getD i dNode).left ∩ descB nodes (nodes.getD i dNode).right = ∅ := by
  rcases hwf.2.1 i hi with ⟨hleaf, _, _⟩ | ⟨_, hl1, hl2, hr1, hr2, hlr⟩
  · omega
  · by_contra hne
    have hnonempty : (descB nodes (nodes.getD i dNode).left ∩
        descB nodes (nodes.getD i dNode).right).Nonempty :=
      Finset.nonempty_iff_ne_empty.mpr hne
    set x := (descB nodes (nodes.getD i dNode).left ∩
        descB nodes (nodes.getD i dNode).right).min' hnonempty with hxdef
    have hxmem := Finset.min'_mem _ hnonempty
    rw [← hxdef] at hxmem
    have hxl : x ∈ descB nodes (nodes.getD i dNode).left := (Finset.mem_inter.mp hxmem).1
    have hxr : x ∈ descB nodes (nodes.getD i dNode).right := (Finset.mem_inter.mp hxmem).2
    have hcnm := descB_child_not_mem hwf hi hint
    have hxnl : x ≠ (nodes.getD i dNode).left := by
      intro hc
      rw [hc] at hxr
      exact hcnm.1 hxr
    have hxnr : x ≠ (nodes.getD i dNode).right := by
      intro hc
      rw [hc] at hxl
      exact hcnm.2 hxl
    obtain ⟨p1, hp11, hp12, hp13, hp14⟩ :=
      descB_parent hwf (nodes.length - (nodes.getD i dNode).left)
        (nodes.getD i dNode).left le_rfl hl2 x hxl hxnl
    obtain ⟨p2, hp21, hp22, hp23, hp24⟩ :=
      descB_parent hwf (nodes.length - (nodes.getD i dNode).right)
        (nodes.getD i dNode).right le_rfl hr2 x hxr hxnr
    have hp12eq : p1 = p2 := uniqueParent_eq hwf hp12 hp22 hp13 hp23 hp14 hp24
    subst hp12eq
    have hpx : p1 < x := by
      rcases hwf.2.1 p1 hp12 with ⟨hpl, _, _⟩ | ⟨_, hc1, _, hc2, _, _⟩
      · omega
      · rcases hp14 with hp14 | hp14 <;> omega
    have hpmem : p1 ∈ descB nodes (nodes.getD i dNode).left ∩
        descB nodes (nodes.getD i dNode).right :=
      Finset.mem_inter.mpr ⟨hp11, hp21⟩
    have := Finset.min'_le _ p1 hpmem
    rw [← hxdef] at this
    omega

theorem weightB_eq_card {nodes : List BVHNode} (hwf : WellFormedBVH nodes) :
    ∀ m i, nodes.length - i ≤ m → i < nodes.length →
      weightB nodes i = (descB nodes i).card := by
  intro m
  induction m with
  | zero =>
    intro i h1 h2
    omega
  | succ m ih =>
    intro i h1 h2
    rcases hwf.2.1 i h2 with ⟨hleaf, _, _⟩ | ⟨hint, hl1, hl2, hr1, hr2, _⟩
    · rw [descB_leaf hleaf, weightB, if_pos hleaf]
      simp
    · have hguard : i < (nodes.getD i dNode).left ∧ (nodes.getD i dNode).left < nodes.length ∧
          i < (nodes.getD i dNode).right ∧ (nodes.getD i dNode).right < nodes.length :=
        ⟨hl1, hl2, hr1, hr2⟩
      rw [weightB_interior (by omega) hguard, descB_interior (by omega) hguard]
      have hil : i ∉ descB nodes (nodes.getD i dNode).left := by
        intro hc
        have := descB_mem_bounds hwf (nodes.length - (nodes.getD i dNode).left)
          (nodes.getD i dNode).left le_rfl hl2 i hc
        omega
      have hir : i ∉ descB nodes (nodes.getD i dNode).right := by
        intro hc
        have := descB_mem_bounds hwf (nodes.length - (nodes.getD i dNode).right)
          (nodes.getD i dNode).right le_rfl hr2 i hc
        omega
      have hlr : descB nodes (nodes.getD i dNode).left ∩
          descB nodes (nodes.getD i dNode).right = ∅ := descB_disjoint hwf h2 hint
      have hd1 : Disjoint ({i} : Finset ℕ) (descB nodes (nodes.getD i dNode).left) := by
        rw [Finset.disjoint_left]
        intro a ha
        rw [Finset.mem_singleton.mp ha]
        exact hil
      have hd2 : Disjoint ({i} ∪ descB nodes (nodes.getD i dNode).left)
          (descB nodes (nodes.getD i dNode).right) := by
        rw [Finset.disjoint_left]
        intro a ha har
        rcases Finset.mem_union.mp ha with hai | hal
        · rw [Finset.mem_singleton.mp hai] at har
          exact hir har
        · have : a ∈ descB nodes (nodes.getD i dNode).left ∩
              descB nodes (nodes.getD i dNode).right := Finset.mem_inter.mpr ⟨hal, har⟩
          rw [hlr] at this
          exact absurd this (Finset.not_mem_empty a)
      rw [Finset.card_union_of_disjoint hd2, Finset.card_union_of_disjoint hd1]
      rw [← ih (nodes.getD i dNode).left (by omega) hl2,
        ← ih (nodes.getD i dNode).right (by omega) hr2]
      simp

theorem weightB_le_length {nodes : List BVHNode} (hwf : WellFormedBVH nodes) :
    weightB nodes 0 ≤ nodes.length := by
  rw [weightB_eq_card hwf nodes.length 0 (by omega) hwf.1]
  have hsub : descB nodes 0 ⊆ Finset.range nodes.length := by
    intro j hj
    exact Finset.mem_range.mpr
      (descB_mem_bounds hwf nodes.length 0 (by omega) hwf.1 j hj).2
  have := Finset.card_le_card hsub
  simpa using this

theorem trav_decompose {nodes : List BVHNode} (tris : List Triangle) (ray : Ray)
    (hwf : WellFormedBVH nodes) :
    ∀ m i, nodes.length - i ≤ m → i < nodes.length →
      ∀ (rest : List ℕ) (acc : HitInfo × Bool) (fuel : ℕ),
        weightB nodes i ≤ fuel →
        depthB nodes i + rest.length + 1 ≤ STACK_CAPACITY →
        ∃ k acc2, 1 ≤ k ∧ k ≤ weightB nodes i ∧
          traverseGo nodes tris ray fuel (i :: rest) acc =
            traverseGo nodes tris ray (fuel - k) rest acc2 := by
  intro m
  induction m with
  | zero =>
    intro i h1 h2
    omega
  | succ m ih =>
    intro i h1 h2 rest acc fuel hfuel hdepth
    have hw1 : 1 ≤ weightB nodes i := weightB_pos nodes i
    obtain ⟨fuel1, rfl⟩ : ∃ f1, fuel = f1 + 1 := ⟨fuel - 1, by omega⟩
    rw [traverseGo, if_pos h2]
    by_cases hbox : rayAABBIntersect ray (nodes.getD i dNode).aabb = false
    · rw [if_pos hbox]
      exact ⟨1, acc, le_rfl, hw1, by simp⟩
    · rw [if_neg hbox]
      rcases hwf.2.1 i h2 with ⟨hleaf, _, _⟩ | ⟨hint, hl1, hl2, hr1, hr2, _⟩
      · rw [if_pos hleaf]
        exact ⟨1, leafScan tris ray (nodes.getD i dNode).triangleOffset
          (nodes.getD i dNode).triangleCount acc, le_rfl, hw1, by simp⟩
      · have hguard : i < (nodes.getD i dNode).left ∧ (nodes.getD i dNode).left < nodes.length ∧
            i < (nodes.getD i dNode).right ∧ (nodes.getD i dNode).right < nodes.length :=
          ⟨hl1, hl2, hr1, hr2⟩
        rw [if_neg (by omega : ¬ 0 < (nodes.getD i dNode).triangleCount)]
        have hdi := depthB_interior (by omega) hguard
        have hwi := weightB_interior (by omega) hguard
        rw [if_neg (by omega : ¬ STACK_CAPACITY ≤ rest.length)]
        rw [if_neg (by omega : ¬ STACK_CAPACITY ≤ rest.length + 1)]
        obtain ⟨k1, acc1, hk11, hk12, he1⟩ :=
          ih (nodes.getD i dNode).left (by omega) hl2
            ((nodes.getD i dNode).right :: rest) acc fuel1 (by omega)
            (by
              simp only [List.length_cons]
              omega)
        obtain ⟨k2, acc2, hk21, hk22, he2⟩ :=
          ih (nodes.getD i dNode).right (by omega) hr2 rest acc1 (fuel1 - k1)
            (by omega) (by omega)
        refine ⟨1 + k1 + k2, acc2, by omega, by omega, ?_⟩
        rw [he1, he2, show fuel1 + 1 - (1 + k1 + k2) = fuel1 - k1 - k2 from by omega]

/-- C8 (amended): for every ray and every well-formed BVH node array — each
node a leaf or an interior node with two distinct in-bounds children of
strictly greater index, no two interior nodes sharing a child — whose tree
depth is at most 63, the traversal terminates normally within its fuel of
`2·nodes + 1` loop iterations (the subtree weight of the root is at most
the number of nodes) and the fixed 64-entry stack never overflows (no push
is ever attempted past the capacity, and no out-of-bounds node read
occurs). -/
theorem c8_traversal_terminates_no_overflow (nodes : List BVHNode) (tris : List Triangle)
    (ray : Ray) (hwf : WellFormedBVH nodes) (hdepth : depthB nodes 0 + 1 ≤ 64) :
    (∃ res, traverseBVH nodes tris ray = Except.ok res) ∧
    weightB nodes 0 ≤ nodes.length := by
  have hwlen := weightB_le_length hwf
  obtain ⟨k, acc2, hk1, hk2, he⟩ :=
    trav_decompose tris ray hwf nodes.length 0 (by omega) hwf.1 []
      (⟨Vec3.ofQ 0, -1, Vec3.ofQ 0, 0, ⟨0, 0⟩, false⟩, false) (2 * nodes.length + 1)
      (by omega)
      (by
        simp only [List.length_nil, STACK_CAPACITY]
        omega)
  refine ⟨⟨acc2.1, ?_⟩, hwlen⟩
  rw [traverseBVH, he]
  obtain ⟨f1, hf1⟩ : ∃ f1, 2 * nodes.length + 1 - k = f1 + 1 := ⟨2 * nodes.length - k, by omega⟩
  rw [hf1, traverseGo]

/-- Witness for C8: the single-leaf one-triangle tree is well formed, has
depth 0, and traversal of any ray on it terminates normally. -/
theorem c8_traversal_terminates_no_overflow_witness :
    (∃ res, traverseBVH oneLeafNodes oneTris ray0 = Except.ok res) ∧
    weightB oneLeafNodes 0 ≤ oneLeafNodes.length :=
  c8_traversal_terminates_no_overflow oneLeafNodes oneTris ray0 (by decide)
    (by
      rw [depthB]
      norm_num [oneLeafNodes, dNode])


/-! ## Order facts about `minx`/`maxx` and box containment -/

theorem XQ.ble_total (a b : XQ) : XQ.ble a b = true ∨ XQ.ble b a = true := by
  cases a <;> cases b <;> simp [XQ.ble]
  exact le_total _ _

theorem XQ.negInf_ble (a : XQ) : XQ.ble XQ.negInf a = true := rfl

theorem XQ.ble_minx_left (a b : XQ) : XQ.ble (XQ.minx a b) a = true := by
  rw [XQ.minx]
  split
  · exact XQ.ble_refl a
  · rcases XQ.ble_total a b with h | h
    · simp_all
    · exact h

theorem XQ.ble_minx_right (a b : XQ) : XQ.ble (XQ.minx a b) b = true := by
  rw [XQ.minx]
  split
  · assumption
  · exact XQ.ble_refl b

theorem XQ.ble_le_minx {c a b : XQ} (h1 : XQ.ble c a = true) (h2 : XQ.ble c b = true) :
    XQ.ble c (XQ.minx a b) = true := by
  rw [XQ.minx]
  split <;> assumption

theorem XQ.ble_maxx_left (a b : XQ) : XQ.ble a (XQ.maxx a b) = true := by
  rw [XQ.maxx]
  split
  · assumption
  · exact XQ.ble_refl a

theorem XQ.ble_maxx_right (a b : XQ) : XQ.ble b (XQ.maxx a b) = true := by
  rw [XQ.maxx]
  split
  · exact XQ.ble_refl b
  · rcases XQ.ble_total a b with h | h
    · simp_all
    · exact h

theorem XQ.maxx_le_ble {a b c : XQ} (h1 : XQ.ble a c = true) (h2 : XQ.ble b c = true) :
    XQ.ble (XQ.maxx a b) c = true := by
  rw [XQ.maxx]
  split <;> assumption

theorem boxLe_refl (b : AABBX) : boxLe b b :=
  ⟨XQ.ble_refl _, XQ.ble_refl _, XQ.ble_refl _, XQ.ble_refl _, XQ.ble_refl _, XQ.ble_refl _⟩

theorem ptInBox_mono {p : Vec3} {bi bo : AABBX} (hle : boxLe bi bo) (hp : ptInBox p bi) :
    ptInBox p bo := by
  obtain ⟨l1, l2, l3, l4, l5, l6⟩ := hle
  obtain ⟨p1, p2, p3, p4, p5, p6⟩ := hp
  exact ⟨XQ.ble_trans l1 p1, XQ.ble_trans p2 l2, XQ.ble_trans l3 p3, XQ.ble_trans p4 l4,
    XQ.ble_trans l5 p5, XQ.ble_trans p6 l6⟩

theorem triInBox_mono {t : Triangle} {bi bo : AABBX} (hle : boxLe bi bo)
    (h : triInBox t bi) : triInBox t bo :=
  ⟨ptInBox_mono hle h.1, ptInBox_mono hle h.2.1, ptInBox_mono hle h.2.2⟩

theorem computeAABB_eq_fold (ts : List Triangle) :
    computeAABB ts = ts.foldl expandBox
      ⟨⟨XQ.posInf, XQ.posInf, XQ.posInf⟩, ⟨XQ.negInf, XQ.negInf, XQ.negInf⟩⟩ := rfl

theorem boxLe_expand (b : AABBX) (t : Triangle) : boxLe b (expandBox b t) := by
  refine ⟨?_, ?_, ?_, ?_, ?_, ?_⟩
  · exact XQ.ble_trans (XQ.ble_minx_left _ _)
      (XQ.ble_trans (XQ.ble_minx_left _ _) (XQ.ble_minx_left _ _))
  · exact XQ.ble_trans (XQ.ble_maxx_left _ _)
      (XQ.ble_trans (XQ.ble_maxx_left _ _) (XQ.ble_maxx_left _ _))
  · exact XQ.ble_trans (XQ.ble_minx_left _ _)
      (XQ.ble_trans (XQ.ble_minx_left _ _) (XQ.ble_minx_left _ _))
  · exact XQ.ble_trans (XQ.ble_maxx_left _ _)
      (XQ.ble_trans (XQ.ble_maxx_left _ _) (XQ.ble_maxx_left _ _))
  · exact XQ.ble_trans (XQ.ble_minx_left _ _)
      (XQ.ble_trans (XQ.ble_minx_left _ _) (XQ.ble_minx_left _ _))
  · exact XQ.ble_trans (XQ.ble_maxx_left _ _)
      (XQ.ble_trans (XQ.ble_maxx_left _ _) (XQ.ble_maxx_left _ _))

theorem triInBox_expand (b : AABBX) (t : Triangle) : triInBox t (expandBox b t) := by
  refine ⟨⟨?_, ?_, ?_, ?_, ?_, ?_⟩, ⟨?_, ?_, ?_, ?_, ?_, ?_⟩, ⟨?_, ?_, ?_, ?_, ?_, ?_⟩⟩
  · exact XQ.ble_trans (XQ.ble_minx_left _ _)
      (XQ.ble_trans (XQ.ble_minx_left _ _) (XQ.ble_minx_right _ _))
  · exact XQ.ble_trans (XQ.ble_maxx_right _ _)
      (XQ.ble_trans (XQ.ble_maxx_left _ _) (XQ.ble_maxx_left _ _))
  · exact XQ.ble_trans (XQ.ble_minx_left _ _)
      (XQ.ble_trans (XQ.ble_minx_left _ _) (XQ.ble_minx_right _ _))
  · exact XQ.ble_trans (XQ.ble_maxx_right _ _)
      (XQ.ble_trans (XQ.ble_maxx_left _ _) (XQ.ble_maxx_left _ _))
  · exact XQ.ble_trans (XQ.ble_minx_left _ _)
      (XQ.ble_trans (XQ.ble_minx_left _ _) (XQ.ble_minx_right _ _))
  · exact XQ.ble_trans (XQ.ble_maxx_right _ _)
      (XQ.ble_trans (XQ.ble_maxx_left _ _) (XQ.ble_maxx_left _ _))
  · exact XQ.ble_trans (XQ.ble_minx_left _ _) (XQ.ble_minx_right _ _)
  · exact XQ.ble_trans (XQ.ble_maxx_right _ _) (XQ.ble_maxx_left _ _)
  · exact XQ.ble_trans (XQ.ble_minx_left _ _) (XQ.ble_minx_right _ _)
  · exact XQ.ble_trans (XQ.ble_maxx_right _ _) (XQ.ble_maxx_left _ _)
  · exact XQ.ble_trans (XQ.ble_minx_left _ _) (XQ.ble_minx_right _ _)
  · exact XQ.ble_trans (XQ.ble_maxx_right _ _) (XQ.ble_maxx_left _ _)
  · exact XQ.ble_minx_right _ _
  · exact XQ.ble_maxx_right _ _
  · exact XQ.ble_minx_right _ _
  · exact XQ.ble_maxx_right _ _
  · exact XQ.ble_minx_right _ _
  · exact XQ.ble_maxx_right _ _

theorem boxLe_expand_of {b B : AABBX} {t : Triangle} (hb : boxLe b B) (ht : triInBox t B) :
    boxLe (expandBox b t) B := by
  obtain ⟨b1, b2, b3, b4, b5, b6⟩ := hb
  obtain ⟨⟨p1, p2, p3, p4, p5, p6⟩, ⟨q1, q2, q3, q4, q5, q6⟩, ⟨r1, r2, r3, r4, r5, r6⟩⟩ := ht
  refine ⟨?_, ?_, ?_, ?_, ?_, ?_⟩
  · exact XQ.ble_le_minx (XQ.ble_le_minx (XQ.ble_le_minx b1 p1) q1) r1
  · exact XQ.maxx_le_ble (XQ.maxx_le_ble (XQ.maxx_le_ble b2 p2) q2) r2
  · exact XQ.ble_le_minx (XQ.ble_le_minx (XQ.ble_le_minx b3 p3) q3) r3
  · exact XQ.maxx_le_ble (XQ.maxx_le_ble (XQ.maxx_le_ble b4 p4) q4) r4
  · exact XQ.ble_le_minx (XQ.ble_le_minx (XQ.ble_le_minx b5 p5) q5) r5
  · exact XQ.maxx_le_ble (XQ.maxx_le_ble (XQ.maxx_le_ble b6 p6) q6) r6

theorem boxLe_trans {a b c : AABBX} (h1 : boxLe a b) (h2 : boxLe b c) : boxLe a c := by
  obtain ⟨a1, a2, a3, a4, a5, a6⟩ := h1
  obtain ⟨b1, b2, b3, b4, b5, b6⟩ := h2
  exact ⟨XQ.ble_trans b1 a1, XQ.ble_trans a2 b2, XQ.ble_trans b3 a3, XQ.ble_trans a4 b4,
    XQ.ble_trans b5 a5, XQ.ble_trans a6 b6⟩

theorem foldl_expand_grow (ts : List Triangle) : ∀ b : AABBX, boxLe b (ts.foldl expandBox b) := by
  induction ts with
  | nil => exact fun b => boxLe_refl b
  | cons t ts ih =>
    intro b
    rw [List.foldl_cons]
    exact boxLe_trans (boxLe_expand b t) (ih (expandBox b t))

theorem foldl_expand_mem (ts : List Triangle) :
    ∀ (b : AABBX) (t : Triangle), t ∈ ts → triInBox t (ts.foldl expandBox b) := by
  induction ts with
  | nil =>
    intro b t ht
    exact absurd ht (List.not_mem_nil t)
  | cons u ts ih =>
    intro b t ht
    rw [List.foldl_cons]
    rcases List.mem_cons.mp ht with rfl | ht'
    · exact triInBox_mono (foldl_expand_grow ts (expandBox b t)) (triInBox_expand b t)
    · exact ih (expandBox b u) t ht'

theorem computeAABB_mem {ts : List Triangle} {t : Triangle} (h : t ∈ ts) :
    triInBox t (computeAABB ts) := by
  rw [computeAABB_eq_fold]
  exact foldl_expand_mem ts _ t h

theorem foldl_expand_le (ts : List Triangle) {B : AABBX} (hB : ∀ t ∈ ts, triInBox t B) :
    ∀ b : AABBX, boxLe b B → boxLe (ts.foldl expandBox b) B := by
  induction ts with
  | nil => exact fun b hb => hb
  | cons t ts ih =>
    intro b hb
    rw [List.foldl_cons]
    exact ih (fun u hu => hB u (List.mem_cons_of_mem t hu))
      (expandBox b t) (boxLe_expand_of hb (hB t (List.mem_cons_self t ts)))

theorem computeAABB_le {ts : List Triangle} {B : AABBX} (hB : ∀ t ∈ ts, triInBox t B) :
    boxLe (computeAABB ts) B := by
  rw [computeAABB_eq_fold]
  refine foldl_expand_le ts hB _ ?_
  exact ⟨XQ.ble_posInf _, XQ.negInf_ble _, XQ.ble_posInf _, XQ.negInf_ble _,
    XQ.ble_posInf _, XQ.negInf_ble _⟩

/-! ## List `getD` helpers for append/set updates -/

theorem getD_append_lt {α : Type} (l l2 : List α) (d : α) (i : ℕ) (h : i < l.length) :
    (l ++ l2).getD i d = l.getD i d := by
  rw [List.getD_eq_getElem?_getD, List.getD_eq_getElem?_getD, List.getElem?_append_left h]

theorem getD_append_right {α : Type} (l l2 : List α) (d : α) (i : ℕ) (h : l.length ≤ i) :
    (l ++ l2).getD i d = l2.getD (i - l.length) d := by
  rw [List.getD_eq_getElem?_getD, List.getD_eq_getElem?_getD, List.getElem?_append_right h]

theorem getD_set_ne {α : Type} (l : List α) (d a : α) (i j : ℕ) (h : j ≠ i) :
    (l.set j a).getD i d = l.getD i d := by
  rw [List.getD_eq_getElem?_getD, List.getD_eq_getElem?_getD, List.getElem?_set_ne h]

theorem getD_set_self {α : Type} (l : List α) (d a : α) (i : ℕ) (h : i < l.length) :
    (l.set i a).getD i d = a := by
  rw [List.getD_eq_getElem?_getD, List.getElem?_set_self h]
  rfl

/-! ## Permutations fixing the complement of a range -/

theorem perm_fix_maps {τ : Equiv.Perm ℕ} {lo hi : ℕ}
    (hfix : ∀ k, k < lo ∨ hi ≤ k → τ k = k) {j : ℕ} (h1 : lo ≤ j) (h2 : j < hi) :
    lo ≤ τ j ∧ τ j < hi := by
  by_cases h : τ j < lo ∨ hi ≤ τ j
  · have h3 := hfix (τ j) h
    have h4 : τ j = j := τ.injective h3
    rw [h4] at h
    omega
  · omega

theorem map_perm_range' (τ : Equiv.Perm ℕ) (lo n : ℕ)
    (hfix : ∀ k, k < lo ∨ lo + n ≤ k → τ k = k) :
    ((List.range' lo n).map ⇑τ).Perm (List.range' lo n) := by
  have hmem : ∀ x : ℕ, x ∈ List.range' lo n ↔ lo ≤ x ∧ x < lo + n := by
    intro x
    rw [List.mem_range']
    constructor
    · rintro ⟨i, hi, rfl⟩
      omega
    · intro hx
      exact ⟨x - lo, by omega, by omega⟩
  have hfix' : ∀ k, k < lo ∨ lo + n ≤ k → τ.symm k = k := by
    intro k hk
    conv_lhs => rw [← hfix k hk]
    exact Equiv.symm_apply_apply τ k
  apply List.perm_of_nodup_nodup_toFinset_eq
  · exact (List.nodup_range' lo n).map τ.injective
  · exact List.nodup_range' lo n
  · ext x
    simp only [List.mem_toFinset, List.mem_map]
    constructor
    · rintro ⟨b, hb, rfl⟩
      rw [hmem] at hb
      rw [hmem]
      exact perm_fix_maps hfix hb.1 hb.2
    · intro hx
      rw [hmem] at hx
      refine ⟨τ.symm x, ?_, Equiv.apply_symm_apply τ x⟩
      rw [hmem]
      exact perm_fix_maps hfix' hx.1 hx.2

theorem map_getD_range (l : List Triangle) :
    ((List.range l.length).map fun i => l.getD i dTri) = l := by
  induction l with
  | nil => rfl
  | cons a l ih =>
    rw [List.length_cons, List.range_succ_eq_map, List.map_cons, List.map_map]
    simp only [Function.comp_def, List.getD_cons_succ, List.getD_cons_zero]
    rw [ih]

/-! ## The two-pointer partition permutes the task's sub-range in place -/

theorem partGo_spec (tris : List Triangle) (ax : ℕ) (sp : XQ) (lo hi : ℕ) :
    ∀ (fuel : ℕ) (idx : ℕ → ℕ) (l r : ℤ),
      (lo : ℤ) ≤ l → r < (hi : ℤ) →
      ∃ τ : Equiv.Perm ℕ,
        (partGo tris ax sp fuel idx l r).1 = idx ∘ ⇑τ ∧
        (∀ k, k < lo ∨ hi ≤ k → τ k = k) ∧
        (lo : ℤ) ≤ (partGo tris ax sp fuel idx l r).2 ∧
        (partGo tris ax sp fuel idx l r).2 ≤ max l (r + 1) := by
  intro fuel
  induction fuel with
  | zero =>
    intro idx l r hl hr
    exact ⟨Equiv.refl ℕ, rfl, fun k _ => rfl, hl, le_max_left _ _⟩
  | succ fuel ih =>
    intro idx l r hl hr
    rw [partGo]
    by_cases hlr : l ≤ r
    · rw [if_pos hlr]
      by_cases hc1 : XQ.blt
          (XQ.fin ((computeCentroid (tris.getD (idx l.toNat) dTri)).nth ax)) sp = true
      · rw [if_pos hc1]
        obtain ⟨τ, h1, h2, h3, h4⟩ := ih idx (l + 1) r (by omega) hr
        refine ⟨τ, h1, h2, h3, ?_⟩
        rw [le_max_iff] at h4 ⊢
        omega
      · rw [if_neg hc1]
        by_cases hc2 : XQ.ble sp
            (XQ.fin ((computeCentroid (tris.getD (idx r.toNat) dTri)).nth ax)) = true
        · rw [if_pos hc2]
          obtain ⟨τ, h1, h2, h3, h4⟩ := ih idx l (r - 1) hl (by omega)
          refine ⟨τ, h1, h2, h3, ?_⟩
          rw [le_max_iff] at h4 ⊢
          omega
        · rw [if_neg hc2]
          by_cases hlt : l < r
          · rw [if_pos hlt]
            obtain ⟨τ, h1, h2, h3, h4⟩ :=
              ih (idx ∘ Equiv.swap l.toNat r.toNat) (l + 1) (r - 1) (by omega) (by omega)
            refine ⟨τ.trans (Equiv.swap l.toNat r.toNat), ?_, ?_, h3, ?_⟩
            · rw [h1]
              rfl
            · intro k hk
              rw [Equiv.trans_apply, h2 k hk]
              apply Equiv.swap_apply_of_ne_of_ne
              · omega
              · omega
            · rw [le_max_iff] at h4 ⊢
              omega
          · rw [if_neg hlt]
            exact ⟨Equiv.refl ℕ, rfl, fun k _ => rfl, hl, le_max_left _ _⟩
    · rw [if_neg hlr]
      exact ⟨Equiv.refl ℕ, rfl, fun k _ => rfl, hl, le_max_left _ _⟩

theorem partGo_perm (tris : List Triangle) (ax : ℕ) (sp : XQ) (t : BuildTask)
    (idx : ℕ → ℕ) :
    ∃ τ : Equiv.Perm ℕ,
      (partGo tris ax sp (t.count + 2) idx (t.start : ℤ)
          ((t.start : ℤ) + (t.count : ℤ) - 1)).1 = idx ∘ ⇑τ ∧
      (∀ k, k < t.start ∨ t.start + t.count ≤ k → τ k = k) ∧
      (t.start : ℤ) ≤
        (partGo tris ax sp (t.count + 2) idx (t.start : ℤ)
          ((t.start : ℤ) + (t.count : ℤ) - 1)).2 ∧
      (partGo tris ax sp (t.count + 2) idx (t.start : ℤ)
          ((t.start : ℤ) + (t.count : ℤ) - 1)).2 ≤ (t.start : ℤ) + (t.count : ℤ) := by
  obtain ⟨τ, h1, h2, h3, h4⟩ :=
    partGo_spec tris ax sp t.start (t.start + t.count) (t.count + 2) idx
      (t.start : ℤ) ((t.start : ℤ) + (t.count : ℤ) - 1) le_rfl (by push_cast; omega)
  refine ⟨τ, h1, fun k hk => h2 k (by omega), h3, ?_⟩
  rw [le_max_iff] at h4
  omega

/-! ## Preservation of the builder invariant -/

theorem boxA_of_perm (tris : List Triangle) (st : BuildState) (t : BuildTask)
    (inv : BuildInv tris st)
    (htn1 : t.nodeIndex < st.nodes.length)
    (htn2 : (st.nodes.getD t.nodeIndex dNode).triangleOffset = t.start)
    (htn3 : (st.nodes.getD t.nodeIndex dNode).triangleCount = t.count)
    (τ : Equiv.Perm ℕ)
    (hfix : ∀ k, k < t.start ∨ t.start + t.count ≤ k → τ k = k) :
    ∀ i, i < st.nodes.length → 0 < (st.nodes.getD i dNode).triangleCount →
      ∀ j, (st.nodes.getD i dNode).triangleOffset ≤ j →
        j < (st.nodes.getD i dNode).triangleOffset + (st.nodes.getD i dNode).triangleCount →
        triInBox (tris.getD (st.idx (τ j)) dTri) (st.nodes.getD i dNode).aabb := by
  intro i hi hcnt j hj1 hj2
  by_cases hcase : t.start ≤ j ∧ j < t.start + t.count
  · have hjN : j < tris.length := lt_of_lt_of_le hj2 (inv.rangeBound i hi hcnt)
    obtain ⟨u, hu, huniq⟩ := inv.cover j hjN
    have h1 : i = u := huniq i ⟨hi, hcnt, hj1, hj2⟩
    have h2 : t.nodeIndex = u := huniq t.nodeIndex ⟨htn1, by omega, by omega, by omega⟩
    have hieq : i = t.nodeIndex := by omega
    subst hieq
    have hmaps := perm_fix_maps hfix (show t.start ≤ j by omega)
      (show j < t.start + t.count by omega)
    exact inv.boxA t.nodeIndex hi hcnt (τ j) (by omega) (by omega)
  · have hfj : τ j = j := hfix j (by omega)
    rw [hfj]
    exact inv.boxA i hi hcnt j hj1 hj2

theorem pop_state_inv (tris : List Triangle) (st : BuildState) (t : BuildTask)
    (rest : List BuildTask) (inv : BuildInv tris st) (hq : st.queue = t :: rest) :
    BuildInv tris { st with queue := rest } := by
  refine ⟨inv.perm, inv.rootLen, inv.rootBox, inv.shape, inv.rangeBound, inv.cover, ?_, ?_,
    inv.boxA, inv.boxB⟩
  · intro t' ht'
    exact inv.tasks t' (by rw [hq]; exact List.mem_cons_of_mem t ht')
  · have hpw := inv.taskDistinct
    rw [hq] at hpw
    exact (List.pairwise_cons.mp hpw).2

theorem perm_state_inv (tris : List Triangle) (st : BuildState) (t : BuildTask)
    (rest : List BuildTask) (inv : BuildInv tris st) (hq : st.queue = t :: rest)
    (τ : Equiv.Perm ℕ) (f : ℕ → ℕ) (hf : ∀ k, f k = st.idx (τ k))
    (hfix : ∀ k, k < t.start ∨ t.start + t.count ≤ k → τ k = k) :
    BuildInv tris { st with idx := f, queue := rest } := by
  obtain ⟨htn1, htn2, htn3, htn4⟩ := inv.tasks t (by rw [hq]; exact List.mem_cons_self t rest)
  have hNb : t.start + t.count ≤ tris.length := by
    have := inv.rangeBound t.nodeIndex htn1 (by omega)
    omega
  obtain ⟨σ, hσ1, hσ2⟩ := inv.perm
  refine ⟨⟨τ.trans σ, ?_, ?_⟩, inv.rootLen, inv.rootBox, inv.shape, inv.rangeBound, inv.cover,
    ?_, ?_, ?_, inv.boxB⟩
  · funext k
    show f k = (τ.trans σ) k
    rw [Equiv.trans_apply, hf k, hσ1]
  · intro k hk
    show f k = k
    rw [hf k, hfix k (by omega)]
    exact hσ2 k hk
  · intro t' ht'
    exact inv.tasks t' (by rw [hq]; exact List.mem_cons_of_mem t ht')
  · have hpw := inv.taskDistinct
    rw [hq] at hpw
    exact (List.pairwise_cons.mp hpw).2
  · intro i hi hcnt j hj1 hj2
    show triInBox (tris.getD (f j) dTri) _
    rw [hf j]
    exact boxA_of_perm tris st t inv htn1 htn2 htn3 τ hfix i hi hcnt j hj1 hj2

theorem split_state_inv (tris : List Triangle) (st : BuildState) (t : BuildTask)
    (rest : List BuildTask) (inv : BuildInv tris st) (hq : st.queue = t :: rest)
    (τ : Equiv.Perm ℕ) (f : ℕ → ℕ) (hf : ∀ k, f k = st.idx (τ k))
    (hfix : ∀ k, k < t.start ∨ t.start + t.count ≤ k → τ k = k)
    (lz : ℤ) (hlz1 : (t.start : ℤ) < lz) (hlz2 : lz < (t.start : ℤ) + (t.count : ℤ))
    (lc rc : ℕ) (hlc : lc = (lz - (t.start : ℤ)).toNat) (hrc : rc = t.count - lc)
    (L R : BVHNode)
    (hL : L = ⟨computeAABB ((List.range lc).map fun i => tris.getD (f (t.start + i)) dTri),
      NO_CHILD, NO_CHILD, t.start, lc⟩)
    (hR : R = ⟨computeAABB ((List.range rc).map fun i => tris.getD (f (lz.toNat + i)) dTri),
      NO_CHILD, NO_CHILD, lz.toNat, rc⟩)
    (N2 : List BVHNode)
    (hN2 : N2 = (st.nodes ++ [L, R]).set t.nodeIndex
      { st.nodes.getD t.nodeIndex dNode with
        left := st.nodes.length, right := st.nodes.length + 1, triangleCount := 0 })
    (Q2 : List BuildTask)
    (hQ2 : Q2 = ⟨lz.toNat, rc, st.nodes.length + 1⟩ :: ⟨t.start, lc, st.nodes.length⟩ :: rest) :
    BuildInv tris { nodes := N2, idx := f, queue := Q2 } := by
  obtain ⟨htn1, htn2, htn3, htn4⟩ := inv.tasks t (by rw [hq]; exact List.mem_cons_self t rest)
  have hNb : t.start + t.count ≤ tris.length := by
    have := inv.rangeBound t.nodeIndex htn1 (by omega)
    omega
  have hlc1 : 1 ≤ lc := by omega
  have hlc2 : lc < t.count := by omega
  have hlzn : lz.toNat = t.start + lc := by omega
  have hrc1 : 1 ≤ rc := by omega
  have hlen2 : N2.length = st.nodes.length + 2 := by
    rw [hN2]
    simp [List.length_set, List.length_append]
  have hgetP : N2.getD t.nodeIndex dNode =
      { st.nodes.getD t.nodeIndex dNode with
        left := st.nodes.length, right := st.nodes.length + 1, triangleCount := 0 } := by
    rw [hN2]
    refine getD_set_self _ _ _ _ ?_
    rw [List.length_append]
    simp only [List.length_cons, List.length_nil]
    omega
  have hgetOld : ∀ i, i < st.nodes.length → i ≠ t.nodeIndex →
      N2.getD i dNode = st.nodes.getD i dNode := by
    intro i hi hne
    rw [hN2, getD_set_ne _ _ _ _ _ (Ne.symm hne), getD_append_lt _ _ _ _ hi]
  have hgetL : N2.getD st.nodes.length dNode = L := by
    rw [hN2, getD_set_ne _ _ _ _ _ (by omega), getD_append_right _ _ _ _ le_rfl]
    simp
  have hgetR : N2.getD (st.nodes.length + 1) dNode = R := by
    rw [hN2, getD_set_ne _ _ _ _ _ (by omega), getD_append_right _ _ _ _ (by omega)]
    simp [show st.nodes.length + 1 - st.nodes.length = 1 from by omega]
  have hPleft : (N2.getD t.nodeIndex dNode).left = st.nodes.length := by rw [hgetP]
  have hPright : (N2.getD t.nodeIndex dNode).right = st.nodes.length + 1 := by rw [hgetP]
  have hPcnt : (N2.getD t.nodeIndex dNode).triangleCount = 0 := by rw [hgetP]
  have hPaabb : (N2.getD t.nodeIndex dNode).aabb = (st.nodes.getD t.nodeIndex dNode).aabb := by
    rw [hgetP]
  have hLoff : (N2.getD st.nodes.length dNode).triangleOffset = t.start := by rw [hgetL, hL]
  have hLcnt : (N2.getD st.nodes.length dNode).triangleCount = lc := by rw [hgetL, hL]
  have hLleft : (N2.getD st.nodes.length dNode).left = NO_CHILD := by rw [hgetL, hL]
  have hLright : (N2.getD st.nodes.length dNode).right = NO_CHILD := by rw [hgetL, hL]
  have hLaabb : (N2.getD st.nodes.length dNode).aabb =
      computeAABB ((List.range lc).map fun i => tris.getD (f (t.start + i)) dTri) := by
    rw [hgetL, hL]
  have hRoff : (N2.getD (st.nodes.length + 1) dNode).triangleOffset = lz.toNat := by
    rw [hgetR, hR]
  have hRcnt : (N2.getD (st.nodes.length + 1) dNode).triangleCount = rc := by rw [hgetR, hR]
  have hRleft : (N2.getD (st.nodes.length + 1) dNode).left = NO_CHILD := by rw [hgetR, hR]
  have hRright : (N2.getD (st.nodes.length + 1) dNode).right = NO_CHILD := by rw [hgetR, hR]
  have hRaabb : (N2.getD (st.nodes.length + 1) dNode).aabb =
      computeAABB ((List.range rc).map fun i => tris.getD (f (lz.toNat + i)) dTri) := by
    rw [hgetR, hR]
  have haabb : ∀ i, i < st.nodes.length →
      (N2.getD i dNode).aabb = (st.nodes.getD i dNode).aabb := by
    intro i hi
    by_cases h : i = t.nodeIndex
    · rw [h, hPaabb]
    · rw [hgetOld i hi h]
  have hboxAold : ∀ i, i < st.nodes.length → 0 < (st.nodes.getD i dNode).triangleCount →
      ∀ j, (st.nodes.getD i dNode).triangleOffset ≤ j →
        j < (st.nodes.getD i dNode).triangleOffset + (st.nodes.getD i dNode).triangleCount →
        triInBox (tris.getD (f j) dTri) (st.nodes.getD i dNode).aabb := by
    intro i hi hcnt j hj1 hj2
    rw [hf j]
    exact boxA_of_perm tris st t inv htn1 htn2 htn3 τ hfix i hi hcnt j hj1 hj2
  have hmemL : ∀ j, t.start ≤ j → j < t.start + lc →
      tris.getD (f j) dTri ∈ (List.range lc).map fun i => tris.getD (f (t.start + i)) dTri := by
    intro j hj1 hj2
    refine List.mem_map.mpr ⟨j - t.start, List.mem_range.mpr (by omega), ?_⟩
    rw [show t.start + (j - t.start) = j from by omega]
  have hmemR : ∀ j, t.start + lc ≤ j → j < t.start + t.count →
      tris.getD (f j) dTri ∈ (List.range rc).map fun i => tris.getD (f (lz.toNat + i)) dTri := by
    intro j hj1 hj2
    refine List.mem_map.mpr ⟨j - lz.toNat, List.mem_range.mpr (by omega), ?_⟩
    rw [show lz.toNat + (j - lz.toNat) = j from by omega]
  refine ⟨?_, ?_, ?_, ?_, ?_, ?_, ?_, ?_, ?_, ?_⟩
  · obtain ⟨σ, hσ1, hσ2⟩ := inv.perm
    refine ⟨τ.trans σ, ?_, ?_⟩
    · funext k
      show f k = (τ.trans σ) k
      rw [Equiv.trans_apply, hf k, hσ1]
    · intro k hk
      show f k = k
      rw [hf k, hfix k (by omega)]
      exact hσ2 k hk
  · show 0 < N2.length
    omega
  · show (N2.getD 0 dNode).aabb = computeAABB tris
    rw [haabb 0 inv.rootLen]
    exact inv.rootBox
  · dsimp only
    intro i hi
    rw [hlen2] at hi
    rcases Nat.lt_or_ge i st.nodes.length with hilt | hige
    · by_cases hit : i = t.nodeIndex
      · subst hit
        right
        rw [hPcnt, hPleft, hPright, hlen2]
        omega
      · rw [hgetOld i hilt hit]
        rcases inv.shape i hilt with ⟨h1, h2, h3⟩ | ⟨h1, h2, h3, h4, h5⟩
        · exact Or.inl ⟨h1, h2, h3⟩
        · right
          rw [hlen2]
          exact ⟨h1, h2, by omega, h4, by omega⟩
    · rcases Nat.eq_or_lt_of_le hige with heq | hgt
      · left
        rw [← heq, hLcnt, hLleft, hLright]
        exact ⟨by omega, rfl, rfl⟩
      · have heq2 : i = st.nodes.length + 1 := by omega
        subst heq2
        left
        rw [hRcnt, hRleft, hRright]
        exact ⟨by omega, rfl, rfl⟩
  · dsimp only
    intro i hi hcnt
    rw [hlen2] at hi
    rcases Nat.lt_or_ge i st.nodes.length with hilt | hige
    · by_cases hit : i = t.nodeIndex
      · subst hit
        rw [hPcnt] at hcnt
        omega
      · rw [hgetOld i hilt hit] at hcnt ⊢
        exact inv.rangeBound i hilt hcnt
    · rcases Nat.eq_or_lt_of_le hige with heq | hgt
      · rw [← heq, hLoff, hLcnt]
        omega
      · have heq2 : i = st.nodes.length + 1 := by omega
        subst heq2
        rw [hRoff, hRcnt]
        omega
  · dsimp only
    intro j hjN
    obtain ⟨u, hucov, huniq⟩ := inv.cover j hjN
    obtain ⟨hu1, hu2, hu3, hu4⟩ := hucov
    by_cases hut : u = t.nodeIndex
    · subst hut
      have hj1 : t.start ≤ j := by omega
      have hj2 : j < t.start + t.count := by omega
      by_cases hjl : j < t.start + lc
      · refine ⟨st.nodes.length, ⟨?_, ?_, ?_, ?_⟩, ?_⟩
        · rw [hlen2]
          omega
        · rw [hLcnt]
          omega
        · rw [hLoff]
          omega
        · rw [hLoff, hLcnt]
          omega
        · intro y hy
          obtain ⟨hy1, hy2, hy3, hy4⟩ := hy
          rw [hlen2] at hy1
          rcases Nat.lt_or_ge y st.nodes.length with hylt | hyge
          · by_cases hyt : y = t.nodeIndex
            · subst hyt
              rw [hPcnt] at hy2
              omega
            · rw [hgetOld y hylt hyt] at hy2 hy3 hy4
              exact absurd (huniq y ⟨hylt, hy2, hy3, hy4⟩) hyt
          · rcases Nat.eq_or_lt_of_le hyge with hyeq | hygt
            · omega
            · have hyeq2 : y = st.nodes.length + 1 := by omega
              subst hyeq2
              rw [hRoff] at hy3
              omega
      · refine ⟨st.nodes.length + 1, ⟨?_, ?_, ?_, ?_⟩, ?_⟩
        · rw [hlen2]
          omega
        · rw [hRcnt]
          omega
        · rw [hRoff]
          omega
        · rw [hRoff, hRcnt]
          omega
        · intro y hy
          obtain ⟨hy1, hy2, hy3, hy4⟩ := hy
          rw [hlen2] at hy1
          rcases Nat.lt_or_ge y st.nodes.length with hylt | hyge
          · by_cases hyt : y = t.nodeIndex
            · subst hyt
              rw [hPcnt] at hy2
              omega
            · rw [hgetOld y hylt hyt] at hy2 hy3 hy4
              exact absurd (huniq y ⟨hylt, hy2, hy3, hy4⟩) hyt
          · rcases Nat.eq_or_lt_of_le hyge with hyeq | hygt
            · rw [← hyeq, hLoff, hLcnt] at hy4
              omega
            · omega
    · refine ⟨u, ⟨?_, ?_, ?_, ?_⟩, ?_⟩
      · rw [hlen2]
        omega
      · rw [hgetOld u hu1 hut]
        exact hu2
      · rw [hgetOld u hu1 hut]
        exact hu3
      · rw [hgetOld u hu1 hut]
        exact hu4
      · intro y hy
        obtain ⟨hy1, hy2, hy3, hy4⟩ := hy
        rw [hlen2] at hy1
        rcases Nat.lt_or_ge y st.nodes.length with hylt | hyge
        · by_cases hyt : y = t.nodeIndex
          · subst hyt
            rw [hPcnt] at hy2
            omega
          · rw [hgetOld y hylt hyt] at hy2 hy3 hy4
            exact huniq y ⟨hylt, hy2, hy3, hy4⟩
        · have hjr : t.start ≤ j ∧ j < t.start + t.count := by
            rcases Nat.eq_or_lt_of_le hyge with hyeq | hygt
            · rw [← hyeq, hLoff] at hy3
              rw [← hyeq, hLoff, hLcnt] at hy4
              omega
            · have hyeq2 : y = st.nodes.length + 1 := by omega
              subst hyeq2
              rw [hRoff] at hy3
              rw [hRoff, hRcnt] at hy4
              omega
          have hteq := huniq t.nodeIndex ⟨htn1, by omega, by omega, by omega⟩
          exact absurd hteq.symm hut
  · dsimp only
    intro t' ht'
    rw [hQ2] at ht'
    rcases List.mem_cons.mp ht' with rfl | ht''
    · refine ⟨?_, ?_, ?_, ?_⟩
      · show st.nodes.length + 1 < N2.length
        omega
      · show (N2.getD (st.nodes.length + 1) dNode).triangleOffset = lz.toNat
        rw [hRoff]
      · show (N2.getD (st.nodes.length + 1) dNode).triangleCount = rc
        rw [hRcnt]
      · show 0 < rc
        omega
    · rcases List.mem_cons.mp ht'' with rfl | ht3
      · refine ⟨?_, ?_, ?_, ?_⟩
        · show st.nodes.length < N2.length
          omega
        · show (N2.getD st.nodes.length dNode).triangleOffset = t.start
          rw [hLoff]
        · show (N2.getD st.nodes.length dNode).triangleCount = lc
          rw [hLcnt]
        · show 0 < lc
          omega
      · obtain ⟨o1, o2, o3, o4⟩ := inv.tasks t' (by rw [hq]; exact List.mem_cons_of_mem t ht3)
        have hne : t'.nodeIndex ≠ t.nodeIndex := by
          have hpw := inv.taskDistinct
          rw [hq] at hpw
          exact fun h => ((List.pairwise_cons.mp hpw).1 t' ht3) h.symm
        refine ⟨?_, ?_, ?_, o4⟩
        · show t'.nodeIndex < N2.length
          omega
        · rw [hgetOld t'.nodeIndex o1 hne]
          exact o2
        · rw [hgetOld t'.nodeIndex o1 hne]
          exact o3
  · dsimp only
    rw [hQ2]
    refine List.pairwise_cons.mpr ⟨?_, List.pairwise_cons.mpr ⟨?_, ?_⟩⟩
    · intro b hb
      rcases List.mem_cons.mp hb with rfl | hb'
      · show st.nodes.length + 1 ≠ st.nodes.length
        omega
      · have := (inv.tasks b (by rw [hq]; exact List.mem_cons_of_mem t hb')).1
        show st.nodes.length + 1 ≠ b.nodeIndex
        omega
    · intro b hb
      have := (inv.tasks b (by rw [hq]; exact List.mem_cons_of_mem t hb)).1
      show st.nodes.length ≠ b.nodeIndex
      omega
    · have hpw := inv.taskDistinct
      rw [hq] at hpw
      exact (List.pairwise_cons.mp hpw).2
  · dsimp only
    intro i hi hcnt j hj1 hj2
    rw [hlen2] at hi
    rcases Nat.lt_or_ge i st.nodes.length with hilt | hige
    · by_cases hit : i = t.nodeIndex
      · subst hit
        rw [hPcnt] at hcnt
        omega
      · rw [hgetOld i hilt hit] at hcnt hj1 hj2 ⊢
        exact hboxAold i hilt hcnt j hj1 hj2
    · rcases Nat.eq_or_lt_of_le hige with heq | hgt
      · rw [← heq] at hcnt hj1 hj2 ⊢
        rw [hLoff] at hj1
        rw [hLoff, hLcnt] at hj2
        rw [hLaabb]
        exact computeAABB_mem (hmemL j hj1 hj2)
      · have heq2 : i = st.nodes.length + 1 := by omega
        subst heq2
        rw [hRoff] at hj1
        rw [hRoff, hRcnt] at hj2
        rw [hRaabb]
        exact computeAABB_mem (hmemR j (by omega) (by omega))
  · dsimp only
    intro i hi hcnt
    rw [hlen2] at hi
    rcases Nat.lt_or_ge i st.nodes.length with hilt | hige
    · by_cases hit : i = t.nodeIndex
      · subst hit
        rw [hPleft, hPright, hPaabb, hLaabb, hRaabb]
        constructor
        · apply computeAABB_le
          intro x hx
          obtain ⟨i0, hi0, rfl⟩ := List.mem_map.mp hx
          have hi0b := List.mem_range.mp hi0
          exact hboxAold t.nodeIndex htn1 (by omega) (t.start + i0) (by omega) (by omega)
        · apply computeAABB_le
          intro x hx
          obtain ⟨i0, hi0, rfl⟩ := List.mem_map.mp hx
          have hi0b := List.mem_range.mp hi0
          exact hboxAold t.nodeIndex htn1 (by omega) (lz.toNat + i0) (by omega) (by omega)
      · rw [hgetOld i hilt hit] at hcnt ⊢
        obtain ⟨hb1, hb2⟩ := inv.boxB i hilt hcnt
        rcases inv.shape i hilt with ⟨h1, h2, h3⟩ | ⟨h1, h2, h3, h4, h5⟩
        · omega
        · rw [haabb _ h3, haabb _ h5]
          exact ⟨hb1, hb2⟩
    · rcases Nat.eq_or_lt_of_le hige with heq | hgt
      · rw [← heq, hLcnt] at hcnt
        omega
      · have heq2 : i = st.nodes.length + 1 := by omega
        subst heq2
        rw [hRcnt] at hcnt
        omega

theorem buildStep_inv (tris : List Triangle) (st : BuildState) (t : BuildTask)
    (rest : List BuildTask) (inv : BuildInv tris st) (hq : st.queue = t :: rest) :
    BuildInv tris (buildStep tris st t rest) := by
  by_cases hsmall : t.count ≤ MAX_TRIANGLES_PER_NODE
  · rw [buildStep, if_pos hsmall]
    exact pop_state_inv tris st t rest inv hq
  · simp only [buildStep]
    rw [if_neg hsmall]
    generalize findSplitV1 (st.nodes.getD t.nodeIndex dNode).aabb
      ((List.range t.count).map fun i =>
        computeCentroid (tris.getD (st.idx (t.start + i)) dTri)) = ch
    obtain ⟨τ, hτ1, hτ2, hτ3, hτ4⟩ := partGo_perm tris ch.axisSel ch.splitPos t st.idx
    generalize hpr : partGo tris ch.axisSel ch.splitPos (t.count + 2) st.idx
      (t.start : ℤ) ((t.start : ℤ) + (t.count : ℤ) - 1) = pr
    rw [hpr] at hτ1 hτ3 hτ4
    by_cases hdeg : pr.2 ≤ (t.start : ℤ) ∨ (t.start : ℤ) + (t.count : ℤ) ≤ pr.2
    · rw [if_pos hdeg]
      exact perm_state_inv tris st t rest inv hq τ pr.1 (fun k => by rw [hτ1]; rfl) hτ2
    · rw [if_neg hdeg]
      push_neg at hdeg
      exact split_state_inv tris st t rest inv hq τ pr.1 (fun k => by rw [hτ1]; rfl) hτ2
        pr.2 hdeg.1 hdeg.2 _ _ rfl rfl _ _ rfl rfl _ rfl _ rfl

theorem buildRun_inv (tris : List Triangle) :
    ∀ (fuel : ℕ) (st : BuildState), BuildInv tris st → BuildInv tris (buildRun tris fuel st) := by
  intro fuel
  induction fuel with
  | zero => exact fun st inv => inv
  | succ fuel ih =>
    intro st inv
    rw [buildRun]
    cases hq : st.queue with
    | nil => exact inv
    | cons t rest => exact ih _ (buildStep_inv tris st t rest inv hq)

theorem initState_inv (tris : List Triangle) (hne : 0 < tris.length) :
    BuildInv tris (initState tris) := by
  refine ⟨⟨Equiv.refl ℕ, rfl, fun k _ => rfl⟩, Nat.one_pos, rfl, ?_, ?_, ?_, ?_, ?_, ?_, ?_⟩
  · intro i hi
    have hi0 : i = 0 := by
      simp only [initState, List.length_cons, List.length_nil] at hi
      omega
    subst hi0
    left
    exact ⟨hne, rfl, rfl⟩
  · intro i hi hcnt
    have hi0 : i = 0 := by
      simp only [initState, List.length_cons, List.length_nil] at hi
      omega
    subst hi0
    show 0 + tris.length ≤ tris.length
    omega
  · intro j hj
    refine ⟨0, ⟨Nat.one_pos, hne, Nat.zero_le j, ?_⟩, ?_⟩
    · show j < 0 + tris.length
      omega
    · intro y hy
      have hy1 := hy.1
      simp only [initState, List.length_cons, List.length_nil] at hy1
      omega
  · intro t' ht'
    have ht'' : t' = ⟨0, tris.length, 0⟩ := by
      simpa only [initState, List.mem_singleton] using ht'
    subst ht''
    exact ⟨Nat.one_pos, rfl, rfl, hne⟩
  · exact List.Pairwise.cons (fun b hb => absurd hb (List.not_mem_nil b)) List.Pairwise.nil
  · intro i hi hcnt j hj1 hj2
    have hi0 : i = 0 := by
      simp only [initState, List.length_cons, List.length_nil] at hi
      omega
    subst hi0
    have hjN : j < tris.length := by
      simp only [initState, List.getD_cons_zero] at hj2
      omega
    have hmem : tris.getD j dTri ∈ tris := by
      rw [List.getD_eq_getElem?_getD, List.getElem?_eq_getElem hjN, Option.getD_some]
      exact List.getElem_mem hjN
    exact computeAABB_mem hmem
  · intro i hi hcnt0
    have hi0 : i = 0 := by
      simp only [initState, List.length_cons, List.length_nil] at hi
      omega
    subst hi0
    simp only [initState, List.getD_cons_zero] at hcnt0
    omega

theorem buildBVH_inv (tris : List Triangle) (hne : 0 < tris.length) :
    BuildInv tris (buildRun tris (buildFuel (initState tris)) (initState tris)) :=
  buildRun_inv tris (buildFuel (initState tris)) (initState tris) (initState_inv tris hne)

theorem belowTris_inBox_inv (tris : List Triangle) (st : BuildState) (inv : BuildInv tris st) :
    ∀ m i, st.nodes.length - i ≤ m → i < st.nodes.length →
      ∀ j ∈ belowTris st.nodes i,
        j < tris.length ∧ triInBox (tris.getD (st.idx j) dTri) (st.nodes.getD i dNode).aabb := by
  intro m
  induction m with
  | zero =>
    intro i h1 h2
    omega
  | succ m ih =>
    intro i h1 h2 j hj
    by_cases hleaf : 0 < (st.nodes.getD i dNode).triangleCount
    · rw [belowTris, if_pos hleaf] at hj
      have hmem := Finset.mem_Ico.mp hj
      have hrb := inv.rangeBound i h2 hleaf
      exact ⟨by omega, inv.boxA i h2 hleaf j hmem.1 hmem.2⟩
    · rcases inv.shape i h2 with ⟨hc, _, _⟩ | ⟨hc, hg1, hg2, hg3, hg4⟩
      · omega
      · rw [belowTris, if_neg hleaf, dif_pos ⟨hg1, hg2, hg3, hg4⟩] at hj
        obtain ⟨hb1, hb2⟩ := inv.boxB i h2 hc
        rcases Finset.mem_union.mp hj with hjl | hjr
        · obtain ⟨hjN, hbox⟩ := ih (st.nodes.getD i dNode).left (by omega) hg2 j hjl
          exact ⟨hjN, triInBox_mono hb1 hbox⟩
        · obtain ⟨hjN, hbox⟩ := ih (st.nodes.getD i dNode).right (by omega) hg4 j hjr
          exact ⟨hjN, triInBox_mono hb2 hbox⟩

theorem buildBVH_perm (tris : List Triangle) (hne : 0 < tris.length) :
    ((buildBVH tris).2).Perm tris := by
  obtain ⟨σ, hσ1, hσ2⟩ := (buildBVH_inv tris hne).perm
  show ((List.range tris.length).map fun i =>
    tris.getD ((buildRun tris (buildFuel (initState tris)) (initState tris)).idx i) dTri).Perm
      tris
  simp only [hσ1]
  have hperm : ((List.range tris.length).map ⇑σ).Perm (List.range tris.length) := by
    rw [List.range_eq_range']
    refine map_perm_range' σ 0 tris.length ?_
    intro k hk
    have hk2 : tris.length ≤ k := by omega
    have h3 := hσ2 k hk2
    rw [hσ1] at h3
    exact h3
  have h2 := hperm.map fun k => tris.getD k dTri
  rw [List.map_map] at h2
  simp only [Function.comp_def] at h2
  rw [map_getD_range tris] at h2
  exact h2

/-- C1: for every non-empty input triangle list, `buildBVH` returns a node
array and a reordered triangle array such that (a) the reordered array is a
permutation of the input; (b) every populated (leaf) node's range
`[triangleOffset, triangleOffset + triangleCount)` lies inside the array;
(c) every input slot lies in exactly one populated node's range — the leaf
ranges are pairwise disjoint and cover every triangle exactly once, no
triangle duplicated or dropped; and (d) every node's AABB contains all
three vertices of every reordered triangle reachable beneath that node. -/
theorem c1_bvh_build_output (tris : List Triangle) (hne : 0 < tris.length) :
    ((buildBVH tris).2).Perm tris ∧
    (∀ i, i < (buildBVH tris).1.length →
      0 < ((buildBVH tris).1.getD i dNode).triangleCount →
      ((buildBVH tris).1.getD i dNode).triangleOffset +
          ((buildBVH tris).1.getD i dNode).triangleCount ≤ tris.length) ∧
    (∀ j, j < tris.length → ∃! i, i < (buildBVH tris).1.length ∧
      0 < ((buildBVH tris).1.getD i dNode).triangleCount ∧
      ((buildBVH tris).1.getD i dNode).triangleOffset ≤ j ∧
      j < ((buildBVH tris).1.getD i dNode).triangleOffset +
        ((buildBVH tris).1.getD i dNode).triangleCount) ∧
    (∀ i, i < (buildBVH tris).1.length → ∀ j ∈ belowTris (buildBVH tris).1 i,
      triInBox ((buildBVH tris).2.getD j dTri) ((buildBVH tris).1.getD i dNode).aabb) := by
  have inv := buildBVH_inv tris hne
  refine ⟨buildBVH_perm tris hne, inv.rangeBound, inv.cover, ?_⟩
  intro i hi j hj
  obtain ⟨hjN, hbox⟩ := belowTris_inBox_inv tris
    (buildRun tris (buildFuel (initState tris)) (initState tris)) inv
    (buildRun tris (buildFuel (initState tris)) (initState tris)).nodes.length i
    (Nat.sub_le _ _) hi j hj
  have hsnd : (buildBVH tris).2.getD j dTri =
      tris.getD ((buildRun tris (buildFuel (initState tris)) (initState tris)).idx j) dTri := by
    show ((List.range tris.length).map fun i =>
      tris.getD ((buildRun tris (buildFuel (initState tris)) (initState tris)).idx i)
        dTri).getD j dTri = _
    rw [List.getD_eq_getElem?_getD, List.getElem?_map, List.getElem?_range hjN]
    rfl
  rw [hsnd]
  exact hbox

/-- Witness for C1: the one-triangle input is non-empty and the returned
reordered array is a permutation of it. -/
theorem c1_bvh_build_output_witness :
    0 < oneTris.length ∧ ((buildBVH oneTris).2).Perm oneTris :=
  ⟨by decide, (c1_bvh_build_output oneTris (by decide)).1⟩

/-- C4 counterexample: on the empty triangle list the builder returns a
single root node with `triangleCount = 0` *and* both children equal to the
`0xffffffff` sentinel, which is not a valid node index — the node is
neither a leaf (positive count) nor an interior node (valid children), so
the claimed dichotomy fails for the empty input. -/
theorem c4_cex_empty_input :
    (buildBVH ([] : List Triangle)).1.length = 1 ∧
    ((buildBVH ([] : List Triangle)).1.getD 0 dNode).triangleCount = 0 ∧
    ((buildBVH ([] : List Triangle)).1.getD 0 dNode).left = NO_CHILD ∧
    ((buildBVH ([] : List Triangle)).1.getD 0 dNode).right = NO_CHILD ∧
    ¬(((buildBVH ([] : List Triangle)).1.getD 0 dNode).left <
        (buildBVH ([] : List Triangle)).1.length) := by
  decide

/-- C4 (corrected): for every *non-empty* input, every node in the array
returned by `buildBVH` is either a leaf (`triangleCount > 0` and both child
indices equal the no-child sentinel) or an interior node
(`triangleCount = 0` and both child indices valid, each strictly greater
than the parent's index) — never both and never neither; the root is node
0 and its AABB equals the AABB of the whole triangle set.  (On the empty
input the single root node is neither, see the counterexample.) -/
theorem c4_node_dichotomy (tris : List Triangle) (hne : 0 < tris.length) :
    0 < (buildBVH tris).1.length ∧
    ((buildBVH tris).1.getD 0 dNode).aabb = computeAABB tris ∧
    ∀ i, i < (buildBVH tris).1.length →
      ((0 < ((buildBVH tris).1.getD i dNode).triangleCount ∧
          ((buildBVH tris).1.getD i dNode).left = NO_CHILD ∧
          ((buildBVH tris).1.getD i dNode).right = NO_CHILD) ∨
        (((buildBVH tris).1.getD i dNode).triangleCount = 0 ∧
          i < ((buildBVH tris).1.getD i dNode).left ∧
          ((buildBVH tris).1.getD i dNode).left < (buildBVH tris).1.length ∧
          i < ((buildBVH tris).1.getD i dNode).right ∧
          ((buildBVH tris).1.getD i dNode).right < (buildBVH tris).1.length)) ∧
      ¬((0 < ((buildBVH tris).1.getD i dNode).triangleCount ∧
          ((buildBVH tris).1.getD i dNode).left = NO_CHILD ∧
          ((buildBVH tris).1.getD i dNode).right = NO_CHILD) ∧
        (((buildBVH tris).1.getD i dNode).triangleCount = 0 ∧
          i < ((buildBVH tris).1.getD i dNode).left ∧
          ((buildBVH tris).1.getD i dNode).left < (buildBVH tris).1.length ∧
          i < ((buildBVH tris).1.getD i dNode).right ∧
          ((buildBVH tris).1.getD i dNode).right < (buildBVH tris).1.length)) := by
  have inv := buildBVH_inv tris hne
  refine ⟨inv.rootLen, inv.rootBox, ?_⟩
  intro i hi
  refine ⟨inv.shape i hi, ?_⟩
  rintro ⟨⟨h1, _, _⟩, ⟨h2, _⟩⟩
  omega

/-- Witness for C4: the one-triangle input is non-empty, the returned array
is non-empty and its root carries the whole-input AABB. -/
theorem c4_node_dichotomy_witness :
    0 < oneTris.length ∧ 0 < (buildBVH oneTris).1.length ∧
      ((buildBVH oneTris).1.getD 0 dNode).aabb = computeAABB oneTris :=
  ⟨by decide, (c4_node_dichotomy oneTris (by decide)).1,
    (c4_node_dichotomy oneTris (by decide)).2.1⟩

end PT
